import Mathlib

/-!
A verification development for the todolist MDP scheduling engine.

The development shallowly embeds the core of the system: the deterministic
to-do-list MDP (states, actions, transitions, rewards, Bellman evaluation),
the three solvers of `todolistMDP/mdp_solvers.py` (backward induction,
policy iteration with its linear-system policy evaluation, value iteration),
the day packer of `src/apis.py` (`assign_old_api_points`), and the output
formatter `clean_output` of `src/utils.py`.

Modelling conventions:
- Python dictionaries keyed by states are modelled as total functions
  `State → _`; every read the code performs is at an enumerated state, so the
  two representations agree on everything observable.
- Python floats are idealised as exact rationals (`ℚ`); `round` is modelled
  by exact round-half-to-even on rationals.
- Fallible code (exceptions such as `StopIteration`, `IndexError`,
  `TypeError`, `numpy.linalg.LinAlgError`) is modelled with `Option`:
  `none` means the call raises and produces no result.
- Unbounded `while` loops are modelled with an explicit fuel argument;
  `none` on fuel exhaustion.  Termination theorems exhibit sufficient fuel.
- The class `ToDoListMDP` (file `todolistMDP/to_do_list.py`) is not part of
  the provided sources; its operations are modelled from the specification
  (§3, §4.1–§4.3) and each such definition is marked `Modelled from the
  spec:` in its doc comment.
-/

set_option maxRecDepth 10000

namespace TodoProof

/-! ## Generic list helpers -/

/-- First-occurrence deduplication with an explicit seen-set accumulator
(structural recursion, so that closed instances evaluate by reduction). -/
def dedupFirstAux {α : Type} [DecidableEq α] : List α → List α → List α
  | [], _ => []
  | a :: l, seen =>
    if a ∈ seen then dedupFirstAux l seen else a :: dedupFirstAux l (a :: seen)

/-- First-occurrence deduplication (the order Python's insertion-ordered
sets/dicts produce). -/
def dedupFirst {α : Type} [DecidableEq α] (l : List α) : List α :=
  dedupFirstAux l []

/-- Position of the first occurrence of an element in a list
(`list.index(x)` in Python); returns the length when absent. -/
def posOf {α : Type} [DecidableEq α] (l : List α) (x : α) : Nat :=
  match l with
  | [] => 0
  | a :: l => if a = x then 0 else posOf l x + 1

/-- Monadic map over `Option`, written out explicitly (used to model a loop
whose body may raise). -/
def mapOpt {α β : Type} (f : α → Option β) : List α → Option (List β)
  | [] => some []
  | a :: l =>
    match f a, mapOpt f l with
    | some b, some bs => some (b :: bs)
    | _, _ => none

/-! ## Python `round` -/

/-- Round a rational to the nearest integer, halves to even (Python's
`round`, idealised to exact arithmetic). -/
def roundHalfEven (q : ℚ) : ℤ :=
  let f := ⌊q⌋
  let r := q - (f : ℚ)
  if r < 1/2 then f
  else if 1/2 < r then f + 1
  else if f % 2 = 0 then f else f + 1

/-- Python's `round(q, d)`. -/
def pyRound (q : ℚ) (d : Nat) : ℚ :=
  ((roundHalfEven (q * (10 : ℚ) ^ d) : ℤ) : ℚ) / (10 : ℚ) ^ d

/-! ## Records (Python dictionaries with string keys)

Task records flowing through `clean_output` in `src/utils.py` are
Python dictionaries.  They are modelled as insertion-ordered association
lists, which is exactly the observable behaviour of `dict` (keys keep
insertion order; updating an existing key keeps its position; a new key is
appended). -/

/-- A Python value stored in a record.  `phour q` models the string
`str(q) + "/h"` produced for points-per-hour display; keeping the rational
in the constructor makes the numeric content of the string inspectable. -/
inductive PVal : Type where
  | pnone : PVal
  | pnum : ℚ → PVal
  | pstr : String → PVal
  | phour : ℚ → PVal
  deriving DecidableEq, Repr

/-- A record: insertion-ordered association list modelling a Python dict. -/
abbrev Rec : Type := List (String × PVal)

/-- Lookup of the (first, and in a dict unique) binding of a key:
`task[k]` read, `none` when the read would raise `KeyError`. -/
def rget : Rec → String → Option PVal
  | [], _ => none
  | p :: r, k => if p.1 = k then some p.2 else rget r k

/-- `k in task`. -/
def rhas (r : Rec) (k : String) : Bool :=
  (rget r k).isSome

/-- `task[k] = v`: update an existing key in place, append a new key. -/
def rset : Rec → String → PVal → Rec
  | [], k, v => [(k, v)]
  | p :: r, k, v => if p.1 = k then (k, v) :: r else p :: rset r k v

/-- `del task[k]`: drop the key. -/
def rdel (r : Rec) (k : String) : Rec :=
  r.filter (fun p => p.1 ≠ k)

/-- The key list of a record (`task.keys()`). -/
def rkeys (r : Rec) : List String := r.map (fun p => p.1)

/-! ## `clean_output` (`src/utils.py`, lines 91–172) -/

/-- The `keys_needed` list of `clean_output`. -/
def keys_needed : List String := ["id", "nm", "lm", "parentId", "pcp", "est", "val"]

/-- The body of `clean_output`'s per-task loop.  `humanName` abstracts the
regex-based `get_human_readable_name` helper (its output is irrelevant to the
properties proved here).  `extra` and `missing` are the key lists computed
once from the first record.  `none` models the `TypeError` that Python's
`round` raises when the `val` entry is not a number. -/
def clean_task (humanName : Rec → String) (extra missing : List String)
    (round_param : Nat) (points_per_hour : Bool) (t : Rec) : Option Rec :=
  let t1 := rset t "nm" (PVal.pstr (humanName t))
  let t2 := extra.foldl (fun r k => if rhas r k then rdel r k else r) t1
  let t3 := missing.foldl (fun r k => if rhas r k then r else rset r k PVal.pnone) t2
  match rget t3 "val" with
  | some (PVal.pnum q) =>
    some (rset t3 "val"
      (if points_per_hour then PVal.phour (pyRound q round_param)
       else PVal.pnum (pyRound q round_param)))
  | _ => none

/-- `clean_output(task_list, round_param, points_per_hour)`.  Reading
`task_list[0]` on the empty list raises `IndexError`, modelled by `none`;
the `extra_keys` and `missing_keys` lists are computed from the first
record only, exactly as in the source. -/
def clean_output (humanName : Rec → String) (task_list : List Rec)
    (round_param : Nat) (points_per_hour : Bool) : Option (List Rec) :=
  match task_list with
  | [] => none
  | first :: _ =>
    let current_keys := rkeys first
    let extra_keys := current_keys.filter (fun k => k ∉ keys_needed)
    let missing_keys := keys_needed.filter (fun k => k ∉ current_keys)
    mapOpt (clean_task humanName extra_keys missing_keys round_param points_per_hour)
      task_list

/-- Modelled from the spec: the caller of `clean_output` (the application
layer, not among the provided sources) implements the `points_per_hour`
knob, "reward divided by task duration in hours" (§6), by replacing each
record's `val` (the scaled reward) with `val / (est / 60)` before handing
the list to `clean_output`.  `none` models the error raised when `val` or
`est` is unusable (non-numeric, or a zero division). -/
def apply_points_per_hour (points_per_hour : Bool) (t : Rec) : Option Rec :=
  if points_per_hour then
    match rget t "val", rget t "est" with
    | some (PVal.pnum v), some (PVal.pnum e) =>
      if e = 0 then none else some (rset t "val" (PVal.pnum (v / (e / 60))))
    | _, _ => none
  else some t

/-- The output stage: points-per-hour scaling (spec-modelled caller)
followed by `clean_output`. -/
def output_today_list (humanName : Rec → String) (task_list : List Rec)
    (round_param : Nat) (points_per_hour : Bool) : Option (List Rec) :=
  match mapOpt (apply_points_per_hour points_per_hour) task_list with
  | none => none
  | some scaled => clean_output humanName scaled round_param points_per_hour

/-! ## The deterministic to-do-list MDP

`todolistMDP/to_do_list.py` is not among the provided sources, so the MDP
substrate shared by the three solvers is modelled from the specification
(§3, §4.1–§4.3).  All instances the solvers are run on are deterministic
(`tree_to_old_structure` in `src/utils.py` constructs every `Task` with
`prob=1`), so the model is the deterministic MDP: each action has a single
successor with probability 1. -/

/-- Modelled from the spec (§3 Task): opaque description and positive time
estimate in minutes. -/
structure MTask : Type where
  description : String
  time_est : Nat
  deriving DecidableEq, Repr

/-- Modelled from the spec (§3 Goal): an ordered task block, a
deadline→reward schedule and a lateness penalty. -/
structure MGoal : Type where
  tasks : List MTask
  rewards : List (Nat × ℚ)
  penalty : ℚ
  deriving DecidableEq, Repr

/-- Modelled from the spec (§3, §4.2 ToDoList): the goal list; tasks are
flattened in goal order and indexed globally. -/
structure MToDoList : Type where
  goals : List MGoal
  deriving DecidableEq, Repr

/-- The flattened task list (`get_tasks_list`). -/
def tasksOf (tdl : MToDoList) : List MTask :=
  tdl.goals.foldr (fun g acc => g.tasks ++ acc) []

/-- Total number of tasks `N`. -/
def numTasks (tdl : MToDoList) : Nat := (tasksOf tdl).length

/-- Time estimate of the task with global index `i`. -/
def timeEst (tdl : MToDoList) (i : Nat) : Nat :=
  ((tasksOf tdl).getD i ⟨"", 0⟩).time_est

/-- Description of the task with global index `i`. -/
def taskDesc (tdl : MToDoList) (i : Nat) : String :=
  ((tasksOf tdl).getD i ⟨"", 0⟩).description

/-- Global index at which goal `g`'s task block starts. -/
def goalStart (tdl : MToDoList) (g : Nat) : Nat :=
  ((tdl.goals.take g).map (fun G => G.tasks.length)).sum

/-- Number of goals. -/
def numGoals (tdl : MToDoList) : Nat := tdl.goals.length

/-- The global indices of goal `g`'s tasks. -/
def goalIdxs (tdl : MToDoList) (g : Nat) : List Nat :=
  (List.range (tdl.goals.getD g ⟨[], [], 0⟩).tasks.length).map (fun j => j + goalStart tdl g)

/-- The goal owning task `i` (`task_index_to_goal`). -/
def goalOf (tdl : MToDoList) (i : Nat) : Nat :=
  (((List.range (numGoals tdl)).find? (fun g => i < goalStart tdl (g + 1)))).getD (numGoals tdl)

/-- Whether all of goal `g`'s tasks are marked done in vector `v`. -/
def goalDone (tdl : MToDoList) (g : Nat) (v : List Bool) : Bool :=
  (goalIdxs tdl g).all (fun i => v.getD i false)

/-- Modelled from the spec (§3 Goal, §4.1 `get_reward`): the reward for
completing a goal at elapsed time `t` is the value at the smallest deadline
`≥ t`, or the lateness penalty when `t` exceeds every deadline. -/
def goalRewardAt (G : MGoal) (t : Nat) : ℚ :=
  match G.rewards.filter (fun p => t ≤ p.1) with
  | [] => G.penalty
  | p :: ps => (ps.foldl (fun best x => if x.1 < best.1 then x else best) p).2

/-- The latest deadline over all goals. -/
def latestDeadline (tdl : MToDoList) : Nat :=
  tdl.goals.foldl (fun m G => G.rewards.foldl (fun m p => max m p.1) m) 0

/-- An MDP state: `(completion_vector, elapsed_time)` (§3). -/
abbrev MState : Type := List Bool × Nat

/-- The start state `(tuple(0 for task in tasks), 0)`. -/
def startState (tdl : MToDoList) : MState :=
  (List.replicate (numTasks tdl) false, 0)

/-- Indices of the not-yet-completed tasks, in increasing order. -/
def unsetIdxs (s : MState) : List Nat :=
  (List.range s.1.length).filter (fun i => s.1.getD i true = false)

/-- Modelled from the spec (§3, §4.3 `get_possible_actions`): the legal
actions are the unset indices, except that a state all of whose remaining
actions would land beyond every goal's latest deadline is terminal (empty
action list). -/
def possibleActions (tdl : MToDoList) (s : MState) : List Nat :=
  let raw := unsetIdxs s
  if raw.all (fun i => latestDeadline tdl < s.2 + timeEst tdl i) then [] else raw

/-- Modelled from the spec (§4.3 Transitions, deterministic case): attempt
task `i`, marking it done and advancing time by its estimate. -/
def nextState (tdl : MToDoList) (s : MState) (i : Nat) : MState :=
  (s.1.set i true, s.2 + timeEst tdl i)

/-- Modelled from the spec (§4.3 Rewards, deterministic case): completing
task `i` earns its goal's deadline-schedule reward exactly when it completes
the goal, and `0` otherwise. -/
def rewardOf (tdl : MToDoList) (s : MState) (i : Nat) : ℚ :=
  if goalDone tdl (goalOf tdl i) (s.1.set i true) then
    goalRewardAt (tdl.goals.getD (goalOf tdl i) ⟨[], [], 0⟩) (s.2 + timeEst tdl i)
  else 0

/-- Modelled from the spec (§4.3 Bellman step): the value of a state with no
legal actions is the sum of the penalties of its incomplete goals (`0` at
true terminals, where every goal is complete). -/
def terminalValue (tdl : MToDoList) (s : MState) : ℚ :=
  (((List.range (numGoals tdl)).filter (fun g => ¬ goalDone tdl g s.1)).map
    (fun g => (tdl.goals.getD g ⟨[], [], 0⟩).penalty)).sum

/-- `get_q_value(s, a, V)` (§4.3), deterministic case:
`R(s,a,s') + γ·V(s')`. -/
def qValue (tdl : MToDoList) (γ : ℚ) (Vval : MState → ℚ) (s : MState) (a : Nat) : ℚ :=
  rewardOf tdl s a + γ * Vval (nextState tdl s a)

/-- Modelled from the spec (§4.3 Bellman step `get_value_and_action`):
maximise the Q-value over legal actions, ties broken by the smallest action
index; `(terminal value, none)` when no action is legal. -/
def get_value_and_action (tdl : MToDoList) (γ : ℚ) (s : MState)
    (Vval : MState → ℚ) : ℚ × Option Nat :=
  match possibleActions tdl s with
  | [] => (terminalValue tdl s, none)
  | a :: rest =>
    rest.foldl (fun best b =>
      if qValue tdl γ Vval s b > best.1 then (qValue tdl γ Vval s b, some b) else best)
      (qValue tdl γ Vval s a, some a)

/-- Number of unfinished tasks in a state. -/
def unsetCount (s : MState) : Nat := s.1.count false

/-- Optimal value and first optimal action of a state, defined with explicit
fuel (any fuel `≥ unsetCount s` gives the same result). -/
def optVAFuel (tdl : MToDoList) (γ : ℚ) : Nat → MState → ℚ × Option Nat
  | 0, s => (terminalValue tdl s, none)
  | f + 1, s => get_value_and_action tdl γ s (fun u => (optVAFuel tdl γ f u).1)

/-- Optimal value and action of a state. -/
def optVA (tdl : MToDoList) (γ : ℚ) (s : MState) : ℚ × Option Nat :=
  optVAFuel tdl γ (unsetCount s) s

/-! ### State enumeration

Modelled from the spec (§4.3 State enumeration, eager mode): states are
generated by forward reachability from the start state, level by level in
the number of completed tasks — a topological order, since every transition
completes exactly one more task.  `get_linearized_states` (used by backward
induction) lists the levels in reverse, so every successor of a state
appears before it (§4.4). -/

/-- All successor states of `s` (one per legal action). -/
def succStates (tdl : MToDoList) (s : MState) : List MState :=
  (possibleActions tdl s).map (nextState tdl s)

/-- The reachable states with exactly `k` completed tasks, in discovery
order. -/
def levelsFrom (tdl : MToDoList) : Nat → List MState
  | 0 => [startState tdl]
  | k + 1 => dedupFirst ((levelsFrom tdl k).flatMap (succStates tdl))

/-- `get_states()`: all reachable states, levels in increasing order of
completed-task count. -/
def getStates (tdl : MToDoList) : List MState :=
  (List.range (numTasks tdl + 1)).flatMap (levelsFrom tdl)

/-- `get_linearized_states()`: the same states with the levels reversed, so
that all successors of a state precede it. -/
def linearizedStates (tdl : MToDoList) : List MState :=
  (List.range (numTasks tdl + 1)).reverse.flatMap (levelsFrom tdl)

/-! ## Backward induction (`mdp_solvers.py`, lines 8–38) -/

/-- Pointwise update of a value table (one Python dict assignment). -/
def updateT (V : MState → ℚ × Option Nat) (s : MState) (x : ℚ × Option Nat) :
    MState → ℚ × Option Nat :=
  fun u => if u = s then x else V u

/-- The single backward-induction pass: for each state of the list in
order, `V_states[state] = get_value_and_action(state, V_states)`. -/
def biSweep (tdl : MToDoList) (γ : ℚ) : List MState → (MState → ℚ × Option Nat) →
    (MState → ℚ × Option Nat)
  | [], V => V
  | s :: rest, V =>
    biSweep tdl γ rest (updateT V s (get_value_and_action tdl γ s (fun u => (V u).1)))

/-- `backward_induction(to_do_list)`: initialise every state's entry to
`(0, None)`, run one pass over the linearized states, and read the optimal
policy out of the value table. -/
def backward_induction (tdl : MToDoList) (γ : ℚ) :
    (MState → ℚ × Option Nat) × (MState → Option Nat) :=
  let V := biSweep tdl γ (linearizedStates tdl) (fun _ => ((0 : ℚ), none))
  (V, fun s => (V s).2)

/-- Process levels `k, k-1, …, 0` (the order of `linearizedStates`). -/
def biDown (tdl : MToDoList) (γ : ℚ) : Nat → (MState → ℚ × Option Nat) →
    (MState → ℚ × Option Nat)
  | 0, V => biSweep tdl γ (levelsFrom tdl 0) V
  | k + 1, V => biDown tdl γ k (biSweep tdl γ (levelsFrom tdl (k + 1)) V)

/-! ## Value iteration (`mdp_solvers.py`, lines 142–189) -/

/-- The initial table: `{state: (0, None) for state in mdp.get_states()}`. -/
def viInit : MState → ℚ × Option Nat := fun _ => ((0 : ℚ), none)

/-- One synchronous sweep: the fresh `next_v_states` dict, every entry
computed from the previous table (`mdp.V_states`) only. -/
def sweep (tdl : MToDoList) (γ : ℚ) (V : MState → ℚ × Option Nat) :
    MState → ℚ × Option Nat :=
  fun s => get_value_and_action tdl γ s (fun u => (V u).1)

/-- The convergence check of the `while` loop: `converged` stays `True`
exactly when no enumerated state's value moved by more than `epsilon`
(`if abs(old_state_value - new_state_value) > epsilon: converged = False`). -/
def convergedB (tdl : MToDoList) (ε : ℚ) (V V' : MState → ℚ × Option Nat) : Bool :=
  (getStates tdl).all (fun s => decide (|(V s).1 - (V' s).1| ≤ ε))

/-- `k` sweeps. -/
def sweepIter (tdl : MToDoList) (γ : ℚ) : Nat → (MState → ℚ × Option Nat) →
    (MState → ℚ × Option Nat)
  | 0, V => V
  | k + 1, V => sweepIter tdl γ k (sweep tdl γ V)

/-- The `while not converged` loop, with fuel (`none` = fuel exhausted
before convergence). -/
def viLoop (tdl : MToDoList) (γ : ℚ) (ε : ℚ) :
    Nat → (MState → ℚ × Option Nat) → Option (MState → ℚ × Option Nat)
  | 0, _ => none
  | f + 1, V =>
    let V' := sweep tdl γ V
    if convergedB tdl ε V V' then some V' else viLoop tdl γ ε f V'

/-- `policy_extraction(mdp, v_states)` (`mdp_solvers.py`, lines 131–138):
the greedy action of every state under the given table. -/
def policy_extraction (tdl : MToDoList) (γ : ℚ) (V : MState → ℚ × Option Nat) :
    MState → Option Nat :=
  fun s => (get_value_and_action tdl γ s (fun u => (V u).1)).2

/-- `value_iteration(to_do_list, epsilon)`: initialise to `(0, None)`,
sweep until converged, then extract the greedy policy from the final table. -/
def value_iteration (tdl : MToDoList) (γ : ℚ) (ε : ℚ) (fuel : Nat) :
    Option ((MState → ℚ × Option Nat) × (MState → Option Nat)) :=
  match viLoop tdl γ ε fuel viInit with
  | none => none
  | some V => some (V, policy_extraction tdl γ V)

/-! ## Policy iteration (`mdp_solvers.py`, lines 41–138)

`policy_evaluation` builds the linear system in the caller-supplied arrays
`empty_A`, `empty_b` (numpy arrays, written in place) and hands it to
`numpy.linalg.solve`.  Arrays are modelled as lists; the in-place mutation
is modelled by threading the written arrays back to the caller, exactly as
`policy_iteration` reuses them across iterations. -/

/-- A matrix as a list of rows. -/
abbrev QMat : Type := List (List ℚ)

/-- A vector (the `n × 1` array `b`, flattened). -/
abbrev QVec : Type := List ℚ

/-- `A[i][j] = x`. -/
def setMatEntry (A : QMat) (i j : Nat) (x : ℚ) : QMat :=
  A.set i ((A.getD i []).set j x)

/-- `b[i] = x`. -/
def setVecEntry (b : QVec) (i : Nat) (x : ℚ) : QVec :=
  b.set i x

/-- Modelled from the spec (§4.3 `get_trans_states_and_probs`,
deterministic): a legal action has the single successful successor with
probability 1; a `None` action (terminal states after the first policy
improvement) and an illegal action contribute no transitions, which leaves
the terminal rows of the linear system with only their diagonal entry. -/
def transList (tdl : MToDoList) (s : MState) (a : Option Nat) : List (MState × ℚ) :=
  match a with
  | none => []
  | some a => if a ∈ possibleActions tdl s then [(nextState tdl s a, 1)] else []

/-- One row of the linear-system build: `A[i][i] = -1`, then for every
transition `A[i][j] = gamma*prob` and `b[i] = b[i] - prob*reward` (note the
accumulating read-modify-write on `b[i]` and the absence of any reset). -/
def buildRowStep (tdl : MToDoList) (γ : ℚ) (states : List MState)
    (pol : MState → Option Nat) (Ab : QMat × QVec) (i : Nat) : QMat × QVec :=
  let s := states.getD i ([], 0)
  let a := pol s
  let A1 := setMatEntry Ab.1 i i (-1)
  (transList tdl s a).foldl (fun Ab2 sp =>
    (setMatEntry Ab2.1 i (posOf states sp.1) (γ * sp.2),
     setVecEntry Ab2.2 i ((Ab2.2.getD i 0) - sp.2 * rewardOf tdl s (a.getD 0))))
    (A1, Ab.2)

/-- The `for i in range(len(states))` loop of `policy_evaluation` writing
the system into the caller's arrays. -/
def buildAB (tdl : MToDoList) (γ : ℚ) (states : List MState)
    (pol : MState → Option Nat) (A : QMat) (b : QVec) : QMat × QVec :=
  (List.range states.length).foldl (buildRowStep tdl γ states pol) (A, b)

/-- Dot product. -/
def dotVec (xs ys : QVec) : ℚ :=
  (List.zipWith (fun x y => x * y) xs ys).sum

/-- Exact Gaussian elimination with back substitution, modelling
`numpy.linalg.solve`; `none` models the `LinAlgError` raised on a singular
matrix (no usable pivot). -/
def solveLinear : Nat → QMat → QVec → Option QVec
  | 0, _, _ => some []
  | n + 1, A, b =>
    let rows := A.zip b
    match rows.find? (fun rb => decide (rb.1.headD 0 ≠ 0)) with
    | none => none
    | some rv =>
      let others := rows.erase rv
      let p := rv.1.headD 0
      let reduced := others.map (fun srow =>
        let c := srow.1.headD 0 / p
        ((srow.1.tail).zipWith (fun x y => x - c * y) rv.1.tail, srow.2 - c * rv.2))
      match solveLinear n (reduced.map (fun r => r.1)) (reduced.map (fun r => r.2)) with
      | none => none
      | some xs => some (((rv.2 - dotVec rv.1.tail xs) / p) :: xs)

/-- `policy_evaluation(mdp, policies, empty_A, empty_b)`: build the system
into the supplied arrays, solve it, and return the state-value dict together
with the (mutated) arrays. -/
def policy_evaluation (tdl : MToDoList) (γ : ℚ) (states : List MState)
    (pol : MState → Option Nat) (empty_A : QMat) (empty_b : QVec) :
    Option ((MState → ℚ) × QMat × QVec) :=
  let Ab := buildAB tdl γ states pol empty_A empty_b
  match solveLinear states.length Ab.1 Ab.2 with
  | none => none
  | some xs => some ((fun s => xs.getD (posOf states s) 0), Ab.1, Ab.2)

/-- The initial policy of `policy_iteration`: the first incomplete task
(`tasks.index(0)`), or index 0 when every task is complete. -/
def initialPolicy (s : MState) : Option Nat :=
  if false ∈ s.1 then some (posOf s.1 false) else some 0

/-- The `while mdp.optimal_policy != new_policy` loop of
`policy_iteration`, with fuel.  On exit it returns the last evaluation's
value dict together with the converged policy. -/
def piLoop (tdl : MToDoList) (γ : ℚ) (states : List MState) :
    Nat → (MState → Option Nat) → (MState → Option Nat) → QMat → QVec →
    (MState → ℚ) → Option ((MState → ℚ) × (MState → Option Nat))
  | 0, _, _, _, _, _ => none
  | f + 1, oldPol, newPol, A, b, V =>
    if states.all (fun s => decide (oldPol s = newPol s)) then some (V, oldPol)
    else
      match policy_evaluation tdl γ states newPol A b with
      | none => none
      | some (V', A', b') =>
        piLoop tdl γ states f newPol
          (fun s => (get_value_and_action tdl γ s V').2) A' b' V'

/-- `policy_iteration(to_do_list)`: allocate the zero arrays once, start
from the first-legal-action policy, and iterate evaluation and greedy
improvement until the policy stops changing.  The freshly built MDP's
`optimal_policy` attribute (empty before the first iteration) is modelled by
the everywhere-`none` map, which differs from the initial policy so the
loop body always runs at least once, as in the source. -/
def policy_iteration (tdl : MToDoList) (γ : ℚ) (fuel : Nat) :
    Option ((MState → ℚ) × (MState → Option Nat)) :=
  let states := getStates tdl
  let n := states.length
  piLoop tdl γ states fuel (fun _ => none) initialPolicy
    (List.replicate n (List.replicate n (0 : ℚ))) (List.replicate n (0 : ℚ))
    (fun _ => 0)

/-! ## Concrete instances used as witnesses and counterexamples -/

/-- Scenario B of the spec (§8): one goal with one 1-minute task and reward
100 at deadline 1. -/
def tdlB : MToDoList := ⟨[⟨[⟨"T", 1⟩], [(1, 100)], 0⟩]⟩

/-- A deterministic instance on which ε-converged value iteration extracts a
non-optimal action: three single-task goals with rewards small against
`ε = 1/100`, so the very first sweep already moves no value by more than
`ε`. -/
def tdlVI : MToDoList := ⟨[
  ⟨[⟨"A", 1⟩], [(2, 1/250)], -(9/1000)⟩,
  ⟨[⟨"B", 1⟩], [(1, 3/1000), (3, 0)], 0⟩,
  ⟨[⟨"C", 1⟩], [(2, 0)], -(9/1000)⟩]⟩

/-- Three single-task goals with reward `9/100` each: one sweep converges
under the default `ε = 1/10`, yet the true start value is `27/100`. -/
def tdlChain : MToDoList := ⟨[
  ⟨[⟨"A", 1⟩], [(100, 9/100)], 0⟩,
  ⟨[⟨"B", 1⟩], [(100, 9/100)], 0⟩,
  ⟨[⟨"C", 1⟩], [(100, 9/100)], 0⟩]⟩

/-- Two single-task goals for which the initial first-legal policy is not
optimal, so `policy_iteration` performs a second evaluation — with the
arrays still holding the first iteration's entries. -/
def tdlPI : MToDoList := ⟨[
  ⟨[⟨"T0", 2⟩], [(3, 10)], 0⟩,
  ⟨[⟨"T1", 1⟩], [(1, 100)], 0⟩]⟩

/-- The zero matrix handed to `policy_iteration`'s first evaluation. -/
def zeroA (n : Nat) : QMat := List.replicate n (List.replicate n (0 : ℚ))

/-- The zero right-hand side handed to the first evaluation. -/
def zeroB (n : Nat) : QVec := List.replicate n (0 : ℚ)

/-- The state list of `tdlPI` (four states). -/
def piStates : List MState := getStates tdlPI

/-- The first `policy_evaluation` call of `policy_iteration` on `tdlPI`:
initial first-legal policy, freshly zeroed arrays. -/
def piEval1 : Option ((MState → ℚ) × QMat × QVec) :=
  policy_evaluation tdlPI 1 piStates initialPolicy (zeroA piStates.length) (zeroB piStates.length)

/-- The improved policy after the first evaluation (the `new_policy` the
loop builds by greedy extraction from the first call's values). -/
def piPol2 : MState → Option Nat :=
  fun s => match piEval1 with
  | none => none
  | some (V, _, _) => (get_value_and_action tdlPI 1 s V).2

/-- The arrays as the second `policy_evaluation` call leaves them: the
build runs on the arrays still holding the first call's entries. -/
def piAB2 : QMat × QVec :=
  match piEval1 with
  | none => ([], [])
  | some (_, A1, b1) => buildAB tdlPI 1 piStates piPol2 A1 b1

/-- The value dict returned by the second `policy_evaluation` call. -/
def piV2 : MState → ℚ :=
  match piEval1 with
  | none => fun _ => 0
  | some (_, A1, b1) =>
    match policy_evaluation tdlPI 1 piStates piPol2 A1 b1 with
    | none => fun _ => 0
    | some (V, _, _) => V

/-- Build a list from an entry function (used to state the target linear
system `(I − γP_π)V = R_π`). -/
def tabulate {α : Type} (g : Nat → α) : Nat → List α
  | 0 => []
  | n + 1 => g 0 :: tabulate (fun i => g (i + 1)) n

/-- The pair-level action of one transition loop on `(A[i], b[i])`. -/
def rowApply (γ : ℚ) (states : List MState) (rew : ℚ) :
    List (MState × ℚ) → (List ℚ × ℚ) → (List ℚ × ℚ)
  | [], rb => rb
  | sp :: l, rb =>
    rowApply γ states rew l
      (rb.1.set (posOf states sp.1) (γ * sp.2), rb.2 - sp.2 * rew)

/-! ### The target system `(I − γP_π)V = R_π` -/

/-- Transition-probability mass from the `i`-th state to the `j`-th state
under the policy. -/
def Pentry (tdl : MToDoList) (states : List MState) (pol : MState → Option Nat)
    (i j : Nat) : ℚ :=
  (((transList tdl (states.getD i ([], 0)) (pol (states.getD i ([], 0)))).filter
    (fun sp => posOf states sp.1 = j)).map (fun sp => sp.2)).sum

/-- Expected one-step reward of the `i`-th state under the policy. -/
def Rentry (tdl : MToDoList) (states : List MState) (pol : MState → Option Nat)
    (i : Nat) : ℚ :=
  ((transList tdl (states.getD i ([], 0)) (pol (states.getD i ([], 0)))).map
    (fun sp => sp.2 * rewardOf tdl (states.getD i ([], 0))
      ((pol (states.getD i ([], 0))).getD 0))).sum

/-- The row-stochastic matrix `P_π`. -/
def Pmat (tdl : MToDoList) (states : List MState) (pol : MState → Option Nat) : QMat :=
  tabulate (fun i => tabulate (Pentry tdl states pol i) states.length) states.length

/-- The reward vector `R_π`. -/
def Rvec (tdl : MToDoList) (states : List MState) (pol : MState → Option Nat) : QVec :=
  tabulate (Rentry tdl states pol) states.length

/-- The identity matrix. -/
def identMat (n : Nat) : QMat :=
  tabulate (fun i => tabulate (fun j => if i = j then (1 : ℚ) else 0) n) n

/-- Scalar multiple of a matrix. -/
def matSmul (c : ℚ) (A : QMat) : QMat := A.map (fun row => row.map (fun x => c * x))

/-- Entrywise difference of matrices. -/
def matSub (A B : QMat) : QMat :=
  List.zipWith (fun r1 r2 => List.zipWith (fun x y => x - y) r1 r2) A B

/-- Entrywise negation. -/
def matNeg (A : QMat) : QMat := A.map (fun row => row.map (fun x => -x))

/-- Entrywise negation of a vector. -/
def vecNeg (b : QVec) : QVec := b.map (fun x => -x)

/-- Matrix–vector product. -/
def matVec (A : QMat) (v : QVec) : QVec := A.map (fun row => dotVec row v)

/-! ## The day packer (`assign_old_api_points`, `apis.py` lines 37–98) -/

/-- Modelled from the spec (glossary, Pseudo-reward): `Q(s,a) − V(s)`,
standing in for `get_expected_pseudo_rewards` (whose code is outside the
repository).  Following the spec (§9), the stray `possible_action` in the
pin phase's reward line is read as the pinned `action`; none of the packer
facts proved here depend on the reward values. -/
def prVal (tdl : MToDoList) (γ : ℚ) (V : MState → ℚ) (s : MState) (a : Nat) : ℚ :=
  qValue tdl γ V s a - V s

/-- The pin phase (`apis.py` lines 62–69): for each pinned id in order,
the first legal action whose task description equals the id (`none` models
the uncaught `StopIteration` raised by `next` when there is none), with the
successor's **absolute** elapsed time subtracted from the remaining
duration, as in the source. -/
def pinPhase (tdl : MToDoList) (γ : ℚ) (V : MState → ℚ) :
    List String → MState → ℤ → List (Nat × ℚ) → Option (MState × ℤ × List (Nat × ℚ))
  | [], s, dur, acc => some (s, dur, acc)
  | id :: ids, s, dur, acc =>
    match (possibleActions tdl s).find? (fun a => id == taskDesc tdl a) with
    | none => none
    | some a =>
      pinPhase tdl γ V ids (nextState tdl s a)
        (dur - ((nextState tdl s a).2 : ℤ))
        (acc ++ [(a, prVal tdl γ V s a)])

/-- Insert an index into a list of indices ordered by descending Q-value. -/
def insertDesc (qs : List ℚ) (i : Nat) : List Nat → List Nat
  | [] => [i]
  | j :: rest =>
    if qs.getD j 0 < qs.getD i 0 then i :: j :: rest else j :: insertDesc qs i rest

/-- `np.argsort(q_values)[::-1]`: the positions of the Q-value list in
descending order of value. -/
def argsortDesc (qs : List ℚ) : List Nat :=
  (List.range qs.length).foldr (insertDesc qs) []

/-- One pass of the greedy phase's `for` loop (`apis.py` lines 77–88): the
first position in descending-Q order whose successor's **absolute** elapsed
time fits the remaining duration (`duration - next_state[1] >= 0`). -/
def greedyPick (tdl : MToDoList) (γ : ℚ) (V : MState → ℚ) (s : MState) (dur : ℤ) :
    Option Nat :=
  (argsortDesc ((possibleActions tdl s).map (qValue tdl γ V s))).find?
    (fun idx =>
      decide (0 ≤ dur - ((nextState tdl s ((possibleActions tdl s).getD idx 0)).2 : ℤ)))

/-- The `while still_scheduling` loop, with fuel (each accepted pass
completes one task, so `numTasks + 1` passes always suffice). -/
def greedyPhase (tdl : MToDoList) (γ : ℚ) (V : MState → ℚ) :
    Nat → MState → ℤ → List (Nat × ℚ) → MState × ℤ × List (Nat × ℚ)
  | 0, s, dur, acc => (s, dur, acc)
  | f + 1, s, dur, acc =>
    match greedyPick tdl γ V s dur with
    | none => (s, dur, acc)
    | some idx =>
      greedyPhase tdl γ V f
        (nextState tdl s ((possibleActions tdl s).getD idx 0))
        (dur - ((nextState tdl s ((possibleActions tdl s).getD idx 0)).2 : ℤ))
        (acc ++ [((possibleActions tdl s).getD idx 0,
          prVal tdl γ V s ((possibleActions tdl s).getD idx 0))])

/-- `assign_old_api_points`, reduced to its scheduling core: the
`(action, reward)` list it accumulates (`actions_and_rewards`), `none` for
the fatal pin-phase error.  `V` stands for the solved MDP's value table the
caller passes in. -/
def assign_old_api_points (tdl : MToDoList) (γ : ℚ) (V : MState → ℚ)
    (todayIds : List String) (duration : ℤ) : Option (List (Nat × ℚ)) :=
  match pinPhase tdl γ V todayIds (startState tdl) duration [] with
  | none => none
  | some (s, dur, acc) =>
    some (greedyPhase tdl γ V (numTasks tdl + 1) s dur acc).2.2

/-- Cumulative time estimate of a packed `(action, reward)` list. -/
def cumT (tdl : MToDoList) (l : List (Nat × ℚ)) : Nat :=
  (l.map (fun p => timeEst tdl p.1)).sum

/-- A packer instance: two 5-minute single-task goals, rewards 10
(deadline 7) and 5 (deadline 100). -/
def tdlPack : MToDoList := ⟨[
  ⟨[⟨"T0", 5⟩], [(7, 10)], 0⟩,
  ⟨[⟨"T1", 5⟩], [(100, 5)], 0⟩]⟩

/-- The value table `backward_induction` computes for `tdlPack`. -/
def packV : MState → ℚ := fun s => ((backward_induction tdlPack 1).1 s).1


theorem mem_dedupFirstAux {α : Type} [DecidableEq α] {a : α} :
    ∀ {l seen : List α}, a ∈ dedupFirstAux l seen ↔ a ∈ l ∧ a ∉ seen := by
  intro l
  induction l with
  | nil => intro seen; simp [dedupFirstAux]
  | cons b l ih =>
    intro seen
    rw [dedupFirstAux]
    by_cases hb : b ∈ seen
    · rw [if_pos hb, ih]
      constructor
      · rintro ⟨h1, h2⟩; exact ⟨by simp [h1], h2⟩
      · rintro ⟨h1, h2⟩
        rcases List.mem_cons.1 h1 with h1 | h1
        · subst h1; exact absurd hb h2
        · exact ⟨h1, h2⟩
    · rw [if_neg hb]
      by_cases hab : a = b
      · subst hab; simp [hb]
      · simp only [List.mem_cons, hab, false_or]
        rw [ih]
        constructor
        · rintro ⟨h1, h2⟩
          exact ⟨h1, fun hc => h2 (by simp [hc])⟩
        · rintro ⟨h1, h2⟩
          exact ⟨h1, by simp [hab, h2]⟩

theorem mem_dedupFirst {α : Type} [DecidableEq α] {a : α} {l : List α} :
    a ∈ dedupFirst l ↔ a ∈ l := by
  rw [dedupFirst, mem_dedupFirstAux]
  simp

theorem nodup_dedupFirstAux {α : Type} [DecidableEq α] :
    ∀ (l seen : List α), (dedupFirstAux l seen).Nodup := by
  intro l
  induction l with
  | nil => intro seen; simp [dedupFirstAux]
  | cons b l ih =>
    intro seen
    rw [dedupFirstAux]
    by_cases hb : b ∈ seen
    · rw [if_pos hb]; exact ih seen
    · rw [if_neg hb]
      refine List.nodup_cons.2 ⟨?_, ih (b :: seen)⟩
      intro hmem
      have := mem_dedupFirstAux.1 hmem
      simp at this

theorem nodup_dedupFirst {α : Type} [DecidableEq α] (l : List α) :
    (dedupFirst l).Nodup :=
  nodup_dedupFirstAux l []

theorem posOf_lt_length {α : Type} [DecidableEq α] {x : α} :
    ∀ {l : List α}, x ∈ l → posOf l x < l.length
  | a :: l, h => by
    rw [posOf]
    by_cases hax : a = x
    · simp [hax]
    · have hx : x ∈ l := by
        rcases List.mem_cons.1 h with h1 | h1
        · exact absurd h1.symm hax
        · exact h1
      simpa [hax, Nat.succ_lt_succ_iff] using posOf_lt_length hx

theorem getD_posOf {α : Type} [DecidableEq α] {x : α} (d : α) :
    ∀ {l : List α}, x ∈ l → l.getD (posOf l x) d = x
  | a :: l, h => by
    rw [posOf]
    by_cases hax : a = x
    · simp [hax]
    · have hx : x ∈ l := by
        rcases List.mem_cons.1 h with h1 | h1
        · exact absurd h1.symm hax
        · exact h1
      simpa [hax] using getD_posOf d hx

theorem mapOpt_forall₂ {α β : Type} {f : α → Option β} :
    ∀ {l : List α} {out : List β}, mapOpt f l = some out →
      List.Forall₂ (fun a b => f a = some b) l out
  | [], out => by
    intro h
    simp only [mapOpt, Option.some.injEq] at h
    subst h; exact List.Forall₂.nil
  | a :: l, out => by
    intro h
    simp only [mapOpt] at h
    rcases hfa : f a with _ | b <;> rw [hfa] at h
    · exact absurd h (by simp)
    · rcases hrest : mapOpt f l with _ | bs <;> rw [hrest] at h
      · exact absurd h (by simp)
      · cases h
        exact List.Forall₂.cons hfa (mapOpt_forall₂ hrest)

theorem forall₂_comp {α β γ : Type} {R : α → β → Prop} {S : β → γ → Prop} :
    ∀ {l₁ : List α} {l₂ : List β} {l₃ : List γ},
      List.Forall₂ R l₁ l₂ → List.Forall₂ S l₂ l₃ →
      List.Forall₂ (fun a c => ∃ b, R a b ∧ S b c) l₁ l₃ := by
  intro l₁ l₂ l₃ h1
  induction h1 generalizing l₃ with
  | nil =>
    intro h2; cases h2; exact List.Forall₂.nil
  | cons hr _ ih =>
    intro h2
    cases h2 with
    | cons hs htail => exact List.Forall₂.cons ⟨_, hr, hs⟩ (ih htail)

theorem rget_rset_self (r : Rec) (k : String) (v : PVal) :
    rget (rset r k v) k = some v := by
  induction r with
  | nil => simp [rset, rget]
  | cons p r ih =>
    by_cases hp : p.1 = k
    · simp [rset, rget, hp]
    · simp [rset, rget, hp, ih]

theorem rget_rset_other (r : Rec) (k k' : String) (v : PVal) (hkk : k ≠ k') :
    rget (rset r k v) k' = rget r k' := by
  induction r with
  | nil => simp [rset, rget, hkk]
  | cons p r ih =>
    by_cases hp : p.1 = k
    · have hp' : p.1 ≠ k' := by rw [hp]; exact hkk
      simp [rset, rget, hp, hp', hkk]
    · by_cases hp' : p.1 = k'
      · simp [rset, rget, hp, hp', Ne.symm hkk]
      · simp [rset, rget, hp, hp', ih]

theorem rget_rdel_other (r : Rec) (k k' : String) (hkk : k ≠ k') :
    rget (rdel r k) k' = rget r k' := by
  induction r with
  | nil => simp [rdel, rget]
  | cons p r ih =>
    by_cases hp : p.1 = k
    · have hp' : p.1 ≠ k' := by rw [hp]; exact hkk
      simpa [rdel, rget, List.filter_cons, hp, hp', hkk] using ih
    · by_cases hp' : p.1 = k'
      · simp [rdel, rget, List.filter_cons, hp, hp', Ne.symm hkk]
      · simpa [rdel, rget, List.filter_cons, hp, hp'] using ih

/-! ### Helper lemmas about the key-normalisation folds -/

theorem rget_foldl_del (ks : List String) (k₀ : String) (hk : ∀ k ∈ ks, k ≠ k₀) :
    ∀ r : Rec, rget (ks.foldl (fun r k => if rhas r k then rdel r k else r) r) k₀ = rget r k₀ := by
  induction ks with
  | nil => intro r; rfl
  | cons k ks ih =>
    intro r
    have hkk : k ≠ k₀ := hk k (by simp)
    have htail : ∀ k' ∈ ks, k' ≠ k₀ := fun k' h => hk k' (by simp [h])
    rw [List.foldl_cons]
    rw [ih htail]
    by_cases h : rhas r k
    · simp only [h, if_true]
      exact rget_rdel_other r k k₀ hkk
    · simp [h]

theorem rget_foldl_add_some (ks : List String) (k₀ : String) (v : PVal) :
    ∀ r : Rec, rget r k₀ = some v →
      rget (ks.foldl (fun r k => if rhas r k then r else rset r k PVal.pnone) r) k₀ = some v := by
  induction ks with
  | nil => intro r h; exact h
  | cons k ks ih =>
    intro r h
    rw [List.foldl_cons]
    apply ih
    by_cases hkk : k = k₀
    · subst hkk
      have : rhas r k = true := by rw [rhas, h]; rfl
      simp only [this, if_true]; exact h
    · by_cases hh : rhas r k
      · simp only [hh, if_true]; exact h
      · simp only [hh, Bool.false_eq_true, if_false]
        rw [rget_rset_other r k k₀ PVal.pnone hkk]; exact h

theorem clean_task_val_eq (humanName : Rec → String) (extra missing : List String)
    (rp : Nat) (pph : Bool) (t out : Rec) (q : ℚ)
    (hex : ∀ k ∈ extra, k ≠ "val")
    (hval : rget t "val" = some (PVal.pnum q))
    (h : clean_task humanName extra missing rp pph t = some out) :
    rget out "val" =
      some (if pph then PVal.phour (pyRound q rp) else PVal.pnum (pyRound q rp)) := by
  have h1 : rget (rset t "nm" (PVal.pstr (humanName t))) "val" = some (PVal.pnum q) := by
    rw [rget_rset_other t "nm" "val" _ (by decide)]; exact hval
  have h2 : rget (extra.foldl (fun r k => if rhas r k then rdel r k else r)
      (rset t "nm" (PVal.pstr (humanName t)))) "val" = some (PVal.pnum q) :=
    (rget_foldl_del extra "val" hex _).trans h1
  have h3 : rget (missing.foldl (fun r k => if rhas r k then r else rset r k PVal.pnone)
      (extra.foldl (fun r k => if rhas r k then rdel r k else r)
        (rset t "nm" (PVal.pstr (humanName t))))) "val" = some (PVal.pnum q) :=
    rget_foldl_add_some missing "val" _ _ h2
  simp only [clean_task] at h
  rw [h3] at h
  simp only [Option.some.injEq] at h
  subst h
  exact rget_rset_self _ "val" _

/-- `C8`: every record emitted by the output stage carries, in its `val`
field, the incoming scaled reward divided by the task duration in hours and
rendered with the `/h` suffix after rounding (when `points_per_hour` is
set), and the plain rounded reward otherwise. -/
theorem c8_output_val_field (humanName : Rec → String) (round_param : Nat)
    (pph : Bool) (task_list out : List Rec)
    (h : output_today_list humanName task_list round_param pph = some out) :
    List.Forall₂ (fun tin tout => ∀ q e : ℚ,
      rget tin "val" = some (PVal.pnum q) → rget tin "est" = some (PVal.pnum e) →
      rget tout "val" =
        some (if pph then PVal.phour (pyRound (q / (e / 60)) round_param)
              else PVal.pnum (pyRound q round_param))) task_list out := by
  rw [output_today_list] at h
  rcases hsc : mapOpt (apply_points_per_hour pph) task_list with _ | scaled <;>
    rw [hsc] at h
  · exact absurd h (by simp)
  have F1 := mapOpt_forall₂ hsc
  rcases scaled with _ | ⟨first, rest⟩
  · exact absurd h (by simp [clean_output])
  simp only [clean_output] at h
  have F2 := mapOpt_forall₂ h
  have hex : ∀ k ∈ (rkeys first).filter (fun k => k ∉ keys_needed), k ≠ "val" := by
    intro k hk
    rw [List.mem_filter] at hk
    intro hkval
    subst hkval
    have : ("val" : String) ∈ keys_needed := by simp [keys_needed]
    simp [this] at hk
  refine (forall₂_comp F1 F2).imp ?_
  rintro tin tout ⟨mid, happ, hct⟩ q e hq he
  cases pph with
  | false =>
    simp only [apply_points_per_hour, Bool.false_eq_true, if_false,
      Option.some.injEq] at happ
    subst happ
    simpa using clean_task_val_eq humanName _ _ round_param false tin tout q hex hq hct
  | true =>
    simp only [apply_points_per_hour, if_true, hq, he] at happ
    by_cases he0 : e = 0
    · rw [if_pos he0] at happ
      exact absurd happ (by simp)
    · rw [if_neg he0] at happ
      simp only [Option.some.injEq] at happ
      subst happ
      have hmid : rget (rset tin "val" (PVal.pnum (q / (e / 60)))) "val" =
          some (PVal.pnum (q / (e / 60))) := rget_rset_self _ _ _
      simpa using clean_task_val_eq humanName _ _ round_param true _ tout _ hex hmid hct

/-- `C8` witness: a concrete record with reward 10 and a 30-minute estimate
is rendered as 20 points per hour. -/
theorem c8_output_val_field_witness :
    ∃ out, output_today_list (fun _ => "x")
        [[("val", PVal.pnum 10), ("est", PVal.pnum 30)]] 2 true = some out ∧
      List.Forall₂ (fun tin tout => ∀ q e : ℚ,
        rget tin "val" = some (PVal.pnum q) → rget tin "est" = some (PVal.pnum e) →
        rget tout "val" =
          some (if true then PVal.phour (pyRound (q / (e / 60)) 2)
                else PVal.pnum (pyRound q 2)))
        [[("val", PVal.pnum 10), ("est", PVal.pnum 30)]] out :=
  ⟨_, rfl, c8_output_val_field (fun _ => "x") 2 true _ _ rfl⟩

/-- `C10`: `clean_output` raises on the empty task list before producing any
output, and the key normalisation applied to every record is a function of
that record and the first record's key set alone: every output record is
`clean_task` of its input with the `extra`/`missing` lists computed from the
first record, so two calls whose task lists share the first record clean any
common record identically. -/
theorem c10_clean_output_first_record (humanName : Rec → String)
    (round_param : Nat) (pph : Bool) :
    (clean_output humanName [] round_param pph = none) ∧
    (∀ (first : Rec) (rest out : List Rec),
      clean_output humanName (first :: rest) round_param pph = some out →
      List.Forall₂ (fun t t' =>
        clean_task humanName ((rkeys first).filter (fun k => k ∉ keys_needed))
          (keys_needed.filter (fun k => k ∉ rkeys first)) round_param pph t = some t')
        (first :: rest) out) := by
  refine ⟨rfl, ?_⟩
  intro first rest out h
  simp only [clean_output] at h
  exact mapOpt_forall₂ h

/-- `C10` witness: on a concrete two-record list whose second record has a
spurious key `foo` absent from the first record, every record is cleaned by
the normaliser computed from the first record's keys alone (in particular
`foo` is not deleted, since it is not among the first record's extra keys). -/
theorem c10_clean_output_first_record_witness :
    ∃ out, clean_output (fun _ => "x")
        [[("val", PVal.pnum 1)], [("val", PVal.pnum 2), ("foo", PVal.pstr "y")]]
        0 false = some out ∧
      List.Forall₂ (fun t t' =>
        clean_task (fun _ => "x")
          ((rkeys [("val", PVal.pnum 1)]).filter (fun k => k ∉ keys_needed))
          (keys_needed.filter (fun k => k ∉ rkeys [("val", PVal.pnum 1)])) 0 false t = some t')
        [[("val", PVal.pnum 1)], [("val", PVal.pnum 2), ("foo", PVal.pstr "y")]] out :=
  ⟨_, rfl, (c10_clean_output_first_record (fun _ => "x") 0 false).2 _ _ _ rfl⟩

/-! ### Basic facts about actions and the fuelled optimum -/

theorem mem_possibleActions {tdl : MToDoList} {s : MState} {a : Nat}
    (h : a ∈ possibleActions tdl s) : a < s.1.length ∧ s.1.getD a true = false := by
  rw [possibleActions] at h
  split at h
  · simp at h
  · rw [unsetIdxs] at h
    rw [List.mem_filter] at h
    refine ⟨List.mem_range.1 h.1, by simpa using h.2⟩

theorem count_false_set_true :
    ∀ (l : List Bool) (a : Nat), a < l.length → l.getD a true = false →
      (l.set a true).count false + 1 = l.count false
  | b :: l, 0, _, h => by
    simp only [List.getD_cons_zero] at h
    subst h
    simp [List.count_cons]
  | b :: l, a + 1, ha, h => by
    simp only [List.getD_cons_succ] at h
    have := count_false_set_true l a (by simpa using ha) h
    simp only [List.set_cons_succ, List.count_cons]
    omega

theorem unsetCount_pos {tdl : MToDoList} {s : MState} {a : Nat}
    (h : a ∈ possibleActions tdl s) : 0 < unsetCount s := by
  obtain ⟨hlt, hfalse⟩ := mem_possibleActions h
  have hmem : (false : Bool) ∈ s.1 := by
    have hg := List.getD_eq_getElem s.1 true hlt
    rw [hg] at hfalse
    exact hfalse ▸ List.getElem_mem hlt
  rw [unsetCount]
  exact List.count_pos_iff.2 hmem

theorem unsetCount_nextState {tdl : MToDoList} {s : MState} {a : Nat}
    (h : a ∈ possibleActions tdl s) :
    unsetCount (nextState tdl s a) + 1 = unsetCount s := by
  obtain ⟨hlt, hfalse⟩ := mem_possibleActions h
  exact count_false_set_true s.1 a hlt hfalse

theorem unsetCount_zero_no_actions {tdl : MToDoList} {s : MState}
    (h : unsetCount s = 0) : possibleActions tdl s = [] := by
  rw [possibleActions]
  have hraw : unsetIdxs s = [] := by
    rw [unsetIdxs]
    rw [List.filter_eq_nil_iff]
    intro i hi
    rw [List.mem_range] at hi
    simp only [decide_eq_true_eq]
    intro hfalse
    have hmem : (false : Bool) ∈ s.1 := by
      have hg := List.getD_eq_getElem s.1 true hi
      rw [hg] at hfalse
      exact hfalse ▸ List.getElem_mem hi
    rw [unsetCount, List.count_eq_zero] at h
    exact h hmem
  rw [hraw]
  simp

theorem foldl_best_congr (f g : Nat → ℚ) :
    ∀ (l : List Nat) (init : ℚ × Option Nat), (∀ b ∈ l, f b = g b) →
      l.foldl (fun best b => if f b > best.1 then (f b, some b) else best) init =
      l.foldl (fun best b => if g b > best.1 then (g b, some b) else best) init := by
  intro l
  induction l with
  | nil => intro init _; rfl
  | cons b l ih =>
    intro init h
    have hb : f b = g b := h b (by simp)
    simp only [List.foldl_cons, hb]
    exact ih _ (fun x hx => h x (by simp [hx]))

theorem get_value_and_action_congr (tdl : MToDoList) (γ : ℚ) (s : MState)
    (V W : MState → ℚ)
    (h : ∀ a ∈ possibleActions tdl s, V (nextState tdl s a) = W (nextState tdl s a)) :
    get_value_and_action tdl γ s V = get_value_and_action tdl γ s W := by
  rcases hpa : possibleActions tdl s with _ | ⟨a, rest⟩
  · simp only [get_value_and_action, hpa]
  · simp only [get_value_and_action, hpa]
    have ha : qValue tdl γ V s a = qValue tdl γ W s a := by
      rw [qValue, qValue, h a (by rw [hpa]; simp)]
    rw [ha]
    exact foldl_best_congr (qValue tdl γ V s) (qValue tdl γ W s) rest _
      (fun b hb => by rw [qValue, qValue, h b (by rw [hpa]; simp [hb])])

theorem optVAFuel_stable (tdl : MToDoList) (γ : ℚ) :
    ∀ (f : Nat) (s : MState), unsetCount s ≤ f →
      optVAFuel tdl γ f s = optVA tdl γ s := by
  intro f
  induction f using Nat.strong_induction_on with
  | _ f ih =>
    intro s hf
    match f with
    | 0 =>
      have h0 : unsetCount s = 0 := Nat.le_zero.1 hf
      rw [optVA, h0]
    | f + 1 =>
      rcases hpa : possibleActions tdl s with _ | ⟨a, rest⟩
      · have hterm : ∀ g, optVAFuel tdl γ g s = (terminalValue tdl s, none) := by
          intro g
          match g with
          | 0 => rfl
          | g + 1 => rw [optVAFuel, get_value_and_action, hpa]
        rw [hterm, optVA, hterm]
      · have hpos : 0 < unsetCount s :=
          @unsetCount_pos tdl s a (by rw [hpa]; simp)
        obtain ⟨m, hm⟩ : ∃ m, unsetCount s = m + 1 :=
          ⟨unsetCount s - 1, by omega⟩
        have hnext : ∀ b ∈ possibleActions tdl s, unsetCount (nextState tdl s b) = m := by
          intro b hb
          have := unsetCount_nextState hb
          omega
        have hstep : ∀ b ∈ possibleActions tdl s,
            (optVAFuel tdl γ f (nextState tdl s b)).1 = (optVA tdl γ (nextState tdl s b)).1 := by
          intro b hb
          rw [ih f (Nat.lt_succ_self f) (nextState tdl s b) (by rw [hnext b hb]; omega)]
        have hstep2 : ∀ b ∈ possibleActions tdl s,
            (optVAFuel tdl γ m (nextState tdl s b)).1 = (optVA tdl γ (nextState tdl s b)).1 := by
          intro b hb
          rw [ih m (by omega) (nextState tdl s b) (by rw [hnext b hb])]
        rw [optVAFuel, optVA, hm, optVAFuel]
        rw [get_value_and_action_congr tdl γ s (fun u => (optVAFuel tdl γ f u).1)
          (fun u => (optVA tdl γ u).1) hstep]
        rw [get_value_and_action_congr tdl γ s (fun u => (optVAFuel tdl γ m u).1)
          (fun u => (optVA tdl γ u).1) hstep2]

theorem gva_optVA (tdl : MToDoList) (γ : ℚ) (s : MState) :
    get_value_and_action tdl γ s (fun u => (optVA tdl γ u).1) = optVA tdl γ s := by
  rcases hpa : possibleActions tdl s with _ | ⟨a, rest⟩
  · have h1 : get_value_and_action tdl γ s (fun u => (optVA tdl γ u).1) =
        (terminalValue tdl s, none) := by
      rw [get_value_and_action, hpa]
    have h2 : ∀ g, optVAFuel tdl γ g s = (terminalValue tdl s, none) := by
      intro g
      match g with
      | 0 => rfl
      | g + 1 => rw [optVAFuel, get_value_and_action, hpa]
    rw [h1, optVA, h2]
  · have hpos : 0 < unsetCount s :=
      @unsetCount_pos tdl s a (by rw [hpa]; simp)
    obtain ⟨m, hm⟩ : ∃ m, unsetCount s = m + 1 := ⟨unsetCount s - 1, by omega⟩
    have hnext : ∀ b ∈ possibleActions tdl s, unsetCount (nextState tdl s b) = m := by
      intro b hb
      have := unsetCount_nextState hb
      omega
    have hstep : ∀ b ∈ possibleActions tdl s,
        (optVA tdl γ (nextState tdl s b)).1 = (optVAFuel tdl γ m (nextState tdl s b)).1 := by
      intro b hb
      rw [optVAFuel_stable tdl γ m (nextState tdl s b) (by rw [hnext b hb])]
    rw [get_value_and_action_congr tdl γ s (fun u => (optVA tdl γ u).1)
      (fun u => (optVAFuel tdl γ m u).1) hstep]
    conv_rhs => rw [optVA, hm, optVAFuel]

theorem count_true_set_true :
    ∀ (l : List Bool) (a : Nat), a < l.length → l.getD a true = false →
      (l.set a true).count true = l.count true + 1
  | b :: l, 0, _, h => by
    simp only [List.getD_cons_zero] at h
    subst h
    simp [List.count_cons]
  | b :: l, a + 1, ha, h => by
    simp only [List.getD_cons_succ] at h
    have := count_true_set_true l a (by simpa using ha) h
    simp only [List.set_cons_succ, List.count_cons]
    omega

/-- Shape of a level member: full-length vector with exactly `k` bits set. -/
theorem level_shape (tdl : MToDoList) :
    ∀ (k : Nat) (s : MState), s ∈ levelsFrom tdl k →
      s.1.length = numTasks tdl ∧ s.1.count true = k
  | 0, s => by
    intro h
    simp only [levelsFrom, List.mem_singleton] at h
    subst h
    constructor
    · simp [startState]
    · simp [startState, List.count_replicate]
  | k + 1, s => by
    intro h
    rw [levelsFrom, mem_dedupFirst] at h
    rw [List.mem_flatMap] at h
    obtain ⟨u, hu, hsu⟩ := h
    rw [succStates, List.mem_map] at hsu
    obtain ⟨a, ha, hna⟩ := hsu
    obtain ⟨hlen, hcnt⟩ := level_shape tdl k u hu
    obtain ⟨halt, hafalse⟩ := mem_possibleActions ha
    subst hna
    constructor
    · simpa [nextState] using hlen
    · rw [nextState]
      have := count_true_set_true u.1 a halt hafalse
      simp [this, hcnt]

/-- Levels do not exceed the task count. -/
theorem level_le (tdl : MToDoList) (k : Nat) (s : MState)
    (h : s ∈ levelsFrom tdl k) : k ≤ numTasks tdl := by
  obtain ⟨hlen, hcnt⟩ := level_shape tdl k s h
  calc k = s.1.count true := hcnt.symm
    _ ≤ s.1.length := List.count_le_length _ _
    _ = numTasks tdl := hlen

/-- Successors of level-`k` states lie in level `k+1`. -/
theorem succ_mem_next_level (tdl : MToDoList) (k : Nat) (s : MState)
    (hs : s ∈ levelsFrom tdl k) {a : Nat} (ha : a ∈ possibleActions tdl s) :
    nextState tdl s a ∈ levelsFrom tdl (k + 1) := by
  rw [levelsFrom, mem_dedupFirst, List.mem_flatMap]
  exact ⟨s, hs, by rw [succStates, List.mem_map]; exact ⟨a, ha, rfl⟩⟩

/-- A successor of a level-`k` state is never itself in level `k`. -/
theorem succ_not_mem_level (tdl : MToDoList) (k : Nat) (s : MState)
    (hs : s ∈ levelsFrom tdl k) {a : Nat} (ha : a ∈ possibleActions tdl s) :
    nextState tdl s a ∉ levelsFrom tdl k := by
  intro hmem
  obtain ⟨_, hc1⟩ := level_shape tdl k s hs
  obtain ⟨_, hc2⟩ := level_shape tdl k _ hmem
  obtain ⟨halt, hafalse⟩ := mem_possibleActions ha
  have := count_true_set_true s.1 a halt hafalse
  rw [nextState] at hc2
  simp only at hc2
  omega

/-- Reachable states are closed under transitions. -/
theorem getStates_closed (tdl : MToDoList) {s : MState} (hs : s ∈ getStates tdl)
    {a : Nat} (ha : a ∈ possibleActions tdl s) :
    nextState tdl s a ∈ getStates tdl := by
  rw [getStates, List.mem_flatMap] at hs ⊢
  obtain ⟨k, hk, hsk⟩ := hs
  refine ⟨k + 1, ?_, succ_mem_next_level tdl k s hsk ha⟩
  rw [List.mem_range]
  have := level_le tdl (k + 1) _ (succ_mem_next_level tdl k s hsk ha)
  omega

theorem biSweep_correct (tdl : MToDoList) (γ : ℚ) :
    ∀ (ls : List MState) (V : MState → ℚ × Option Nat),
      (∀ s ∈ ls, ∀ a ∈ possibleActions tdl s,
        V (nextState tdl s a) = optVA tdl γ (nextState tdl s a)) →
      (∀ s ∈ ls, ∀ a ∈ possibleActions tdl s, nextState tdl s a ∉ ls) →
      (∀ u ∈ ls, biSweep tdl γ ls V u = optVA tdl γ u) ∧
      (∀ u, u ∉ ls → biSweep tdl γ ls V u = V u) := by
  intro ls
  induction ls with
  | nil => intro V _ _; exact ⟨by simp, fun u _ => rfl⟩
  | cons s rest ih =>
    intro V Hsucc Hdisj
    have hgva : get_value_and_action tdl γ s (fun u => (V u).1) = optVA tdl γ s := by
      have hc : ∀ a ∈ possibleActions tdl s,
          (V (nextState tdl s a)).1 = (optVA tdl γ (nextState tdl s a)).1 := by
        intro a ha
        rw [Hsucc s (by simp) a ha]
      rw [get_value_and_action_congr tdl γ s (fun u => (V u).1)
        (fun u => (optVA tdl γ u).1) hc]
      exact gva_optVA tdl γ s
    set V' := updateT V s (get_value_and_action tdl γ s (fun u => (V u).1)) with hV'
    have hnotmem : ∀ s' ∈ rest, ∀ a ∈ possibleActions tdl s',
        nextState tdl s' a ≠ s := by
      intro s' hs' a ha heq
      exact (Hdisj s' (by simp [hs']) a ha) (by rw [heq]; simp)
    have Hsucc' : ∀ s' ∈ rest, ∀ a ∈ possibleActions tdl s',
        V' (nextState tdl s' a) = optVA tdl γ (nextState tdl s' a) := by
      intro s' hs' a ha
      rw [hV', updateT]
      simp only [hnotmem s' hs' a ha, if_false]
      exact Hsucc s' (by simp [hs']) a ha
    have Hdisj' : ∀ s' ∈ rest, ∀ a ∈ possibleActions tdl s',
        nextState tdl s' a ∉ rest := by
      intro s' hs' a ha hmem
      exact (Hdisj s' (by simp [hs']) a ha) (by simp [hmem])
    obtain ⟨ih1, ih2⟩ := ih V' Hsucc' Hdisj'
    constructor
    · intro u hu
      rcases List.mem_cons.1 hu with hus | hur
      · subst hus
        by_cases hur : u ∈ rest
        · exact ih1 u hur
        · rw [biSweep, ih2 u hur, hV', updateT]
          simp [hgva]
      · exact ih1 u hur
    · intro u hu
      have hus : u ≠ s := fun h => hu (by simp [h])
      have hur : u ∉ rest := fun h => hu (by simp [h])
      rw [biSweep, ih2 u hur, hV', updateT]
      simp [hus]

theorem biSweep_append (tdl : MToDoList) (γ : ℚ) :
    ∀ (l₁ l₂ : List MState) (V : MState → ℚ × Option Nat),
      biSweep tdl γ (l₁ ++ l₂) V = biSweep tdl γ l₂ (biSweep tdl γ l₁ V) := by
  intro l₁
  induction l₁ with
  | nil => intro l₂ V; rfl
  | cons s l₁ ih => intro l₂ V; rw [List.cons_append, biSweep, biSweep, ih]

theorem biSweep_linearized_eq_biDown (tdl : MToDoList) (γ : ℚ) :
    ∀ (k : Nat) (V : MState → ℚ × Option Nat),
      biSweep tdl γ ((List.range (k + 1)).reverse.flatMap (levelsFrom tdl)) V =
        biDown tdl γ k V := by
  intro k
  induction k with
  | zero => intro V; rfl
  | succ k ih =>
    intro V
    rw [List.range_succ, List.reverse_append, List.reverse_singleton,
      List.singleton_append, List.flatMap_cons, biSweep_append, ih]
    rfl

/-- The inductive heart of backward-induction correctness: processing levels
`k` down to `0` makes the table optimal on every level, provided the table
is already optimal on levels above `k`. -/
theorem biDown_correct (tdl : MToDoList) (γ : ℚ) :
    ∀ (k : Nat) (V : MState → ℚ × Option Nat),
      (∀ j, k < j → ∀ u ∈ levelsFrom tdl j, V u = optVA tdl γ u) →
      ∀ (j : Nat) (u : MState), u ∈ levelsFrom tdl j →
        biDown tdl γ k V u = optVA tdl γ u := by
  intro k
  induction k with
  | zero =>
    intro V H j u hu
    have hsw := biSweep_correct tdl γ (levelsFrom tdl 0) V
      (fun s hs a ha => H 1 (by omega) _ (succ_mem_next_level tdl 0 s hs ha))
      (fun s hs a ha => succ_not_mem_level tdl 0 s hs ha)
    by_cases h0 : u ∈ levelsFrom tdl 0
    · exact hsw.1 u h0
    · rw [biDown, hsw.2 u h0]
      rcases Nat.eq_zero_or_pos j with hj | hj
      · subst hj; exact absurd hu h0
      · exact H j hj u hu
  | succ k ih =>
    intro V H j u hu
    have hsw := biSweep_correct tdl γ (levelsFrom tdl (k + 1)) V
      (fun s hs a ha => H (k + 2) (by omega) _ (succ_mem_next_level tdl (k + 1) s hs ha))
      (fun s hs a ha => succ_not_mem_level tdl (k + 1) s hs ha)
    rw [biDown]
    refine ih (biSweep tdl γ (levelsFrom tdl (k + 1)) V) ?_ j u hu
    intro j' hj' u' hu'
    rcases Nat.lt_or_ge (k + 1) j' with hgt | hle
    · have hnot : u' ∉ levelsFrom tdl (k + 1) := by
        intro hmem
        obtain ⟨_, hc1⟩ := level_shape tdl j' u' hu'
        obtain ⟨_, hc2⟩ := level_shape tdl (k + 1) u' hmem
        omega
      rw [hsw.2 u' hnot]
      exact H j' hgt u' hu'
    · have hj'eq : j' = k + 1 := by omega
      subst hj'eq
      exact hsw.1 u' hu'

/-- `C-support`: backward induction computes the optimal value and action at
every reachable state. -/
theorem backward_induction_correct (tdl : MToDoList) (γ : ℚ) :
    ∀ u ∈ getStates tdl, (backward_induction tdl γ).1 u = optVA tdl γ u := by
  intro u hu
  rw [getStates, List.mem_flatMap] at hu
  obtain ⟨j, _, hj⟩ := hu
  show biSweep tdl γ (linearizedStates tdl) (fun _ => ((0 : ℚ), none)) u = optVA tdl γ u
  rw [linearizedStates, biSweep_linearized_eq_biDown]
  refine biDown_correct tdl γ (numTasks tdl) _ ?_ j u hj
  intro j' hj' u' hu'
  exact absurd (level_le tdl j' u' hu') (by omega)

theorem sweepIter_succ_outer (tdl : MToDoList) (γ : ℚ) :
    ∀ (k : Nat) (V : MState → ℚ × Option Nat),
      sweepIter tdl γ (k + 1) V = sweep tdl γ (sweepIter tdl γ k V) := by
  intro k
  induction k with
  | zero => intro V; rfl
  | succ k ih =>
    intro V
    show sweepIter tdl γ (k + 1) (sweep tdl γ V) = _
    rw [ih (sweep tdl γ V)]
    rfl

theorem convergedB_iff (tdl : MToDoList) (ε : ℚ) (V V' : MState → ℚ × Option Nat) :
    convergedB tdl ε V V' = true ↔
      ∀ s ∈ getStates tdl, |(V s).1 - (V' s).1| ≤ ε := by
  rw [convergedB, List.all_eq_true]
  constructor
  · intro h s hs
    exact of_decide_eq_true (h s hs)
  · intro h s hs
    exact decide_eq_true (h s hs)

/-- Trajectory characterisation of the value-iteration loop: a successful
run is exactly `k+1` sweeps from the initial table, where `k` is the first
sweep after which no value moved by more than `ε`. -/
theorem viLoop_spec (tdl : MToDoList) (γ : ℚ) (ε : ℚ) :
    ∀ (fuel : Nat) (V W : MState → ℚ × Option Nat),
      viLoop tdl γ ε fuel V = some W ↔
        ∃ k, k < fuel ∧ W = sweepIter tdl γ (k + 1) V ∧
          convergedB tdl ε (sweepIter tdl γ k V) (sweepIter tdl γ (k + 1) V) = true ∧
          ∀ j < k, convergedB tdl ε (sweepIter tdl γ j V) (sweepIter tdl γ (j + 1) V) = false := by
  intro fuel
  induction fuel with
  | zero =>
    intro V W
    constructor
    · intro h; exact absurd h (by rw [viLoop]; simp)
    · rintro ⟨k, hk, _⟩; omega
  | succ f ih =>
    intro V W
    rw [viLoop]
    by_cases hc : convergedB tdl ε V (sweep tdl γ V) = true
    · simp only [hc, if_true, Option.some.injEq]
      constructor
      · intro h
        exact ⟨0, by omega, h.symm, by
          show convergedB tdl ε (sweepIter tdl γ 0 V) (sweepIter tdl γ 1 V) = true
          exact hc, by omega⟩
      · rintro ⟨k, hk, hW, hconv, hmin⟩
        match k with
        | 0 => exact hW.symm
        | k + 1 =>
          have hfalse : convergedB tdl ε V (sweep tdl γ V) = false := hmin 0 (by omega)
          rw [hfalse] at hc
          exact absurd hc (by simp)
    · have hc' : convergedB tdl ε V (sweep tdl γ V) = false := by
        cases h : convergedB tdl ε V (sweep tdl γ V)
        · rfl
        · exact absurd h hc
      simp only [hc', Bool.false_eq_true, if_false]
      rw [ih (sweep tdl γ V) W]
      constructor
      · rintro ⟨k, hk, hW, hconv, hmin⟩
        refine ⟨k + 1, by omega, hW, hconv, ?_⟩
        intro j hj
        match j with
        | 0 => exact hc'
        | j + 1 => exact hmin j (by omega)
      · rintro ⟨k, hk, hW, hconv, hmin⟩
        match k with
        | 0 =>
          exfalso
          have htrue : convergedB tdl ε V (sweep tdl γ V) = true := hconv
          exact hc htrue
        | k + 1 =>
          refine ⟨k, by omega, hW, hconv, ?_⟩
          intro j hj
          exact hmin (j + 1) (by omega)

/-- After `k` sweeps the table is exact on every state whose number of
remaining tasks is below `k` (Jacobi propagation up the DAG). -/
theorem sweepIter_exact (tdl : MToDoList) (γ : ℚ) :
    ∀ (k : Nat) (s : MState), unsetCount s < k →
      sweepIter tdl γ k viInit s = optVA tdl γ s := by
  intro k
  induction k with
  | zero => intro s h; omega
  | succ m ih =>
    intro s hs
    rw [sweepIter_succ_outer, sweep]
    rcases hpa : possibleActions tdl s with _ | ⟨a, rest⟩
    · have h1 : get_value_and_action tdl γ s
          (fun u => ((sweepIter tdl γ m viInit) u).1) = (terminalValue tdl s, none) := by
        rw [get_value_and_action, hpa]
      have h2 : ∀ g, optVAFuel tdl γ g s = (terminalValue tdl s, none) := by
        intro g
        match g with
        | 0 => rfl
        | g + 1 => rw [optVAFuel, get_value_and_action, hpa]
      rw [h1, optVA, h2]
    · have hpos : 0 < unsetCount s :=
        @unsetCount_pos tdl s a (by rw [hpa]; simp)
      have hstep : ∀ b ∈ possibleActions tdl s,
          ((sweepIter tdl γ m viInit) (nextState tdl s b)).1 =
          (optVA tdl γ (nextState tdl s b)).1 := by
        intro b hb
        have hcnt := unsetCount_nextState hb
        rw [ih (nextState tdl s b) (by omega)]
      rw [get_value_and_action_congr tdl γ s
        (fun u => ((sweepIter tdl γ m viInit) u).1) (fun u => (optVA tdl γ u).1) hstep]
      exact gva_optVA tdl γ s

/-- Every enumerated state has at most `numTasks` remaining tasks. -/
theorem unsetCount_le_numTasks (tdl : MToDoList) (s : MState)
    (hs : s ∈ getStates tdl) : unsetCount s ≤ numTasks tdl := by
  rw [getStates, List.mem_flatMap] at hs
  obtain ⟨j, _, hj⟩ := hs
  obtain ⟨hlen, _⟩ := level_shape tdl j s hj
  calc unsetCount s = s.1.count false := rfl
    _ ≤ s.1.length := List.count_le_length _ _
    _ = numTasks tdl := hlen

/-- Value iteration terminates: `numTasks + 2` sweeps always reach the
convergence test successfully (for a non-negative `ε`). -/
theorem viLoop_terminates (tdl : MToDoList) (γ : ℚ) (ε : ℚ) (hε : 0 ≤ ε) :
    ∃ W, viLoop tdl γ ε (numTasks tdl + 2) viInit = some W := by
  have hP : ∃ k, convergedB tdl ε (sweepIter tdl γ k viInit)
      (sweepIter tdl γ (k + 1) viInit) = true := by
    refine ⟨numTasks tdl + 1, (convergedB_iff _ _ _ _).2 ?_⟩
    intro s hs
    have h1 : sweepIter tdl γ (numTasks tdl + 1) viInit s = optVA tdl γ s :=
      sweepIter_exact tdl γ _ s (by have := unsetCount_le_numTasks tdl s hs; omega)
    have h2 : sweepIter tdl γ (numTasks tdl + 2) viInit s = optVA tdl γ s :=
      sweepIter_exact tdl γ _ s (by have := unsetCount_le_numTasks tdl s hs; omega)
    rw [h1, h2]
    simpa using hε
  classical
  let k₀ := Nat.find hP
  have hk₀ : convergedB tdl ε (sweepIter tdl γ k₀ viInit)
      (sweepIter tdl γ (k₀ + 1) viInit) = true := Nat.find_spec hP
  have hmin : ∀ j < k₀, convergedB tdl ε (sweepIter tdl γ j viInit)
      (sweepIter tdl γ (j + 1) viInit) = false := by
    intro j hj
    have := Nat.find_min hP hj
    cases h : convergedB tdl ε (sweepIter tdl γ j viInit) (sweepIter tdl γ (j + 1) viInit)
    · rfl
    · exact absurd h this
  have hk₀le : k₀ ≤ numTasks tdl + 1 := Nat.find_min' hP (by
    refine (convergedB_iff _ _ _ _).2 ?_
    intro s hs
    have h1 : sweepIter tdl γ (numTasks tdl + 1) viInit s = optVA tdl γ s :=
      sweepIter_exact tdl γ _ s (by have := unsetCount_le_numTasks tdl s hs; omega)
    have h2 : sweepIter tdl γ (numTasks tdl + 2) viInit s = optVA tdl γ s :=
      sweepIter_exact tdl γ _ s (by have := unsetCount_le_numTasks tdl s hs; omega)
    rw [h1, h2]
    simpa using hε)
  exact ⟨sweepIter tdl γ (k₀ + 1) viInit,
    (viLoop_spec tdl γ ε (numTasks tdl + 2) viInit _).2
      ⟨k₀, by omega, rfl, hk₀, hmin⟩⟩

/-! ## Helper facts shared by the solver-agreement claims -/

theorem startState_mem_getStates (tdl : MToDoList) :
    startState tdl ∈ getStates tdl := by
  rw [getStates, List.mem_flatMap]
  exact ⟨0, by rw [List.mem_range]; omega, by rw [levelsFrom]; simp⟩

theorem value_iteration_cases (tdl : MToDoList) (γ ε : ℚ) (fuel : Nat)
    (V : MState → ℚ × Option Nat) (pol : MState → Option Nat)
    (h : value_iteration tdl γ ε fuel = some (V, pol)) :
    viLoop tdl γ ε fuel viInit = some V ∧ pol = policy_extraction tdl γ V := by
  rw [value_iteration] at h
  rcases hvl : viLoop tdl γ ε fuel viInit with _ | W <;> rw [hvl] at h
  · exact absurd h (by simp)
  · simp only [Option.some.injEq, Prod.mk.injEq] at h
    obtain ⟨h1, h2⟩ := h
    subst h1
    exact ⟨rfl, h2.symm⟩

/-- Greedy extraction from any table that carries the optimal values on the
enumerated states coincides with backward induction's policy there. -/
theorem extraction_eq_bi_of_exact (tdl : MToDoList) (γ : ℚ)
    (V : MState → ℚ × Option Nat)
    (hex : ∀ s ∈ getStates tdl, (V s).1 = (optVA tdl γ s).1) :
    ∀ s ∈ getStates tdl, policy_extraction tdl γ V s =
      ((backward_induction tdl γ).1 s).2 := by
  intro s hs
  rw [policy_extraction]
  have hc : ∀ a ∈ possibleActions tdl s,
      (V (nextState tdl s a)).1 = (optVA tdl γ (nextState tdl s a)).1 := by
    intro a ha
    exact hex _ (getStates_closed tdl hs ha)
  rw [get_value_and_action_congr tdl γ s (fun u => (V u).1) (fun u => (optVA tdl γ u).1) hc,
    gva_optVA, backward_induction_correct tdl γ s hs]

/-! ## C4 -/

/-- `C4`: when `value_iteration` returns, its table is exactly `k+1`
synchronous sweeps of `get_value_and_action` from the all-`(0, none)`
initial table, where `k` is the first sweep after which no enumerated
state's value moved by more than `ε`; each sweep entry is computed from the
previous table alone (and only through the values of the state's
successors — Jacobi, never Gauss–Seidel), and the returned policy is the
greedy extraction from the final table. -/
theorem c4_value_iteration_structure (tdl : MToDoList) (γ ε : ℚ) (fuel : Nat)
    (V : MState → ℚ × Option Nat) (pol : MState → Option Nat)
    (h : value_iteration tdl γ ε fuel = some (V, pol)) :
    (∃ k, k < fuel ∧ V = sweepIter tdl γ (k + 1) viInit ∧
      (∀ s ∈ getStates tdl,
        |(sweepIter tdl γ k viInit s).1 - (sweepIter tdl γ (k + 1) viInit s).1| ≤ ε) ∧
      (∀ j < k, ¬ ∀ s ∈ getStates tdl,
        |(sweepIter tdl γ j viInit s).1 - (sweepIter tdl γ (j + 1) viInit s).1| ≤ ε)) ∧
    (∀ (k : Nat) (s : MState), sweepIter tdl γ (k + 1) viInit s =
      get_value_and_action tdl γ s (fun u => (sweepIter tdl γ k viInit u).1)) ∧
    (∀ (W W' : MState → ℚ × Option Nat) (s : MState),
      (∀ a ∈ possibleActions tdl s,
        (W (nextState tdl s a)).1 = (W' (nextState tdl s a)).1) →
      sweep tdl γ W s = sweep tdl γ W' s) ∧
    viInit = (fun _ => ((0 : ℚ), none)) ∧
    pol = policy_extraction tdl γ V := by
  obtain ⟨hvl, hpol⟩ := value_iteration_cases tdl γ ε fuel V pol h
  refine ⟨?_, ?_, ?_, rfl, hpol⟩
  · obtain ⟨k, hk, hW, hconv, hmin⟩ := (viLoop_spec tdl γ ε fuel viInit V).1 hvl
    refine ⟨k, hk, hW, (convergedB_iff tdl ε _ _).1 hconv, ?_⟩
    intro j hj hall
    have := hmin j hj
    rw [(convergedB_iff tdl ε _ _).2 hall] at this
    exact absurd this (by simp)
  · intro k s
    rw [sweepIter_succ_outer, sweep]
  · intro W W' s hW
    rw [sweep, sweep]
    exact get_value_and_action_congr tdl γ s _ _ hW

/-- `C4` witness: the structure theorem applied to the concrete run on
Scenario B. -/
theorem c4_value_iteration_structure_witness :
    ∃ V pol, value_iteration tdlB 1 (1/10) 5 = some (V, pol) ∧
      (∃ k, k < 5 ∧ V = sweepIter tdlB 1 (k + 1) viInit ∧
        (∀ s ∈ getStates tdlB,
          |(sweepIter tdlB 1 k viInit s).1 - (sweepIter tdlB 1 (k + 1) viInit s).1| ≤ 1/10) ∧
        (∀ j < k, ¬ ∀ s ∈ getStates tdlB,
          |(sweepIter tdlB 1 j viInit s).1 - (sweepIter tdlB 1 (j + 1) viInit s).1| ≤ 1/10)) ∧
      pol = policy_extraction tdlB 1 V := by
  rcases hP : value_iteration tdlB 1 (1/10) 5 with _ | ⟨V, pol⟩
  · have hsome : (value_iteration tdlB 1 (1/10) 5).isSome = true := by with_unfolding_all rfl
    rw [hP] at hsome
    exact absurd hsome (by simp)
  · have h := c4_value_iteration_structure tdlB 1 (1/10) 5 V pol hP
    exact ⟨V, pol, rfl, h.1, h.2.2.2.2⟩

/-! ## C5 -/

/-- `C5` counterexample: on `tdlVI` (γ = 1, ε = 0.01) value iteration
terminates but extracts action 1 at the start state, while backward
induction's policy takes action 0 there, and action 1 is strictly
suboptimal (not a tie): its Q-value under the optimal values is below
action 0's. -/
theorem c5_counterexample_policy_mismatch :
    (value_iteration tdlVI 1 (1/100) 10).map (fun P => P.2 (startState tdlVI)) =
      some (some 1) ∧
    ((backward_induction tdlVI 1).1 (startState tdlVI)).2 = some 0 ∧
    qValue tdlVI 1 (fun u => (optVA tdlVI 1 u).1) (startState tdlVI) 1 <
      qValue tdlVI 1 (fun u => (optVA tdlVI 1 u).1) (startState tdlVI) 0 := by
  refine ⟨by with_unfolding_all decide, by with_unfolding_all decide,
    by with_unfolding_all decide⟩

/-- `C5` (amended): on every deterministic instance the `while` loop of
`value_iteration` terminates — `numTasks + 2` sweeps always reach the
convergence test — and the extracted policy agrees with backward
induction's on every enumerated state provided the final ε-converged table
carries the exact optimal values (ε-convergence alone does not guarantee
this, as the counterexample shows). -/
theorem c5_value_iteration_terminates_and_agrees (tdl : MToDoList) (γ ε : ℚ)
    (hε : 0 ≤ ε) :
    (∃ W, viLoop tdl γ ε (numTasks tdl + 2) viInit = some W) ∧
    (∀ (fuel : Nat) (V : MState → ℚ × Option Nat) (pol : MState → Option Nat),
      value_iteration tdl γ ε fuel = some (V, pol) →
      (∀ s ∈ getStates tdl, (V s).1 = (optVA tdl γ s).1) →
      ∀ s ∈ getStates tdl, pol s = ((backward_induction tdl γ).1 s).2) := by
  refine ⟨viLoop_terminates tdl γ ε hε, ?_⟩
  intro fuel V pol h hex s hs
  obtain ⟨_, hpol⟩ := value_iteration_cases tdl γ ε fuel V pol h
  rw [hpol]
  exact extraction_eq_bi_of_exact tdl γ V hex s hs

/-- `C5` witness: termination and (exact-convergence) policy agreement on
the concrete Scenario-B instance with γ = 1, ε = 0.01. -/
theorem c5_value_iteration_terminates_and_agrees_witness :
    (∃ W, viLoop tdlB 1 (1/100) (numTasks tdlB + 2) viInit = some W) ∧
    (∃ V pol, value_iteration tdlB 1 (1/100) 5 = some (V, pol) ∧
      ∀ s ∈ getStates tdlB, pol s = ((backward_induction tdlB 1).1 s).2) := by
  refine ⟨(c5_value_iteration_terminates_and_agrees tdlB 1 (1/100) (by norm_num)).1, ?_⟩
  rcases hP : value_iteration tdlB 1 (1/100) 5 with _ | ⟨V, pol⟩
  · have hsome : (value_iteration tdlB 1 (1/100) 5).isSome = true := by with_unfolding_all rfl
    rw [hP] at hsome
    exact absurd hsome (by simp)
  · have hdec : (value_iteration tdlB 1 (1/100) 5).map
        (fun P => (getStates tdlB).all
          (fun s => decide ((P.1 s).1 = (optVA tdlB 1 s).1))) = some true := by
          with_unfolding_all rfl
    rw [hP] at hdec
    have hall : (getStates tdlB).all
        (fun s => decide ((V s).1 = (optVA tdlB 1 s).1)) = true :=
      Option.some.inj hdec
    have hex : ∀ s ∈ getStates tdlB, (V s).1 = (optVA tdlB 1 s).1 := by
      intro s hs
      exact of_decide_eq_true (List.all_eq_true.1 hall s hs)
    exact ⟨V, pol, rfl,
      (c5_value_iteration_terminates_and_agrees tdlB 1 (1/100) (by norm_num)).2
        5 V pol hP hex⟩

/-! ## C1 -/

/-- `C1` counterexample: on `tdlPI`, policy iteration returns start value
130 while backward induction returns 110 (the reused uncleared arrays
corrupt the second evaluation), and on `tdlChain` with the default
ε = 0.1 the ε-converged value-iteration start value 9/100 differs from
backward induction's 27/100 by more than ε. -/
theorem c1_counterexample_solver_disagreement :
    (policy_iteration tdlPI 1 10).map (fun P => P.1 (startState tdlPI)) = some 130 ∧
    ((backward_induction tdlPI 1).1 (startState tdlPI)).1 = 110 ∧
    (130 : ℚ) ≠ 110 ∧
    (value_iteration tdlChain 1 (1/10) 10).map
      (fun P => (P.1 (startState tdlChain)).1) = some (9/100) ∧
    ((backward_induction tdlChain 1).1 (startState tdlChain)).1 = 27/100 ∧
    ¬ (|(27 : ℚ)/100 - 9/100| ≤ 1/10) := by
  refine ⟨by with_unfolding_all decide, by with_unfolding_all decide, by norm_num,
    by with_unfolding_all decide, by with_unfolding_all decide,
    by with_unfolding_all decide⟩

/-- `C1` (amended): backward induction computes the exact optimal value at
the start state, and whenever value iteration's returned table is exactly
optimal on the enumerated states its start value and its whole policy
coincide with backward induction's.  (As returned by the code, policy
iteration's start value can differ — see the counterexample — because
`policy_evaluation` reuses the uncleared arrays.) -/
theorem c1_solver_agreement (tdl : MToDoList) (γ : ℚ) :
    (((backward_induction tdl γ).1 (startState tdl)).1 =
      (optVA tdl γ (startState tdl)).1) ∧
    (∀ (ε : ℚ) (fuel : Nat) (V : MState → ℚ × Option Nat) (pol : MState → Option Nat),
      value_iteration tdl γ ε fuel = some (V, pol) →
      (∀ s ∈ getStates tdl, (V s).1 = (optVA tdl γ s).1) →
      (V (startState tdl)).1 = ((backward_induction tdl γ).1 (startState tdl)).1 ∧
      ∀ s ∈ getStates tdl, pol s = ((backward_induction tdl γ).1 s).2) := by
  constructor
  · rw [backward_induction_correct tdl γ _ (startState_mem_getStates tdl)]
  · intro ε fuel V pol h hex
    obtain ⟨_, hpol⟩ := value_iteration_cases tdl γ ε fuel V pol h
    constructor
    · rw [hex _ (startState_mem_getStates tdl),
        backward_induction_correct tdl γ _ (startState_mem_getStates tdl)]
    · intro s hs
      rw [hpol]
      exact extraction_eq_bi_of_exact tdl γ V hex s hs

/-- `C1` witness: agreement of backward induction and a concrete
exactly-converged value-iteration run on Scenario B. -/
theorem c1_solver_agreement_witness :
    (((backward_induction tdlB 1).1 (startState tdlB)).1 =
      (optVA tdlB 1 (startState tdlB)).1) ∧
    (∃ V pol, value_iteration tdlB 1 (1/100) 5 = some (V, pol) ∧
      (V (startState tdlB)).1 = ((backward_induction tdlB 1).1 (startState tdlB)).1) := by
  refine ⟨(c1_solver_agreement tdlB 1).1, ?_⟩
  rcases hP : value_iteration tdlB 1 (1/100) 5 with _ | ⟨V, pol⟩
  · have hsome : (value_iteration tdlB 1 (1/100) 5).isSome = true := by with_unfolding_all rfl
    rw [hP] at hsome
    exact absurd hsome (by simp)
  · have hdec : (value_iteration tdlB 1 (1/100) 5).map
        (fun P => (getStates tdlB).all
          (fun s => decide ((P.1 s).1 = (optVA tdlB 1 s).1))) = some true := by
          with_unfolding_all rfl
    rw [hP] at hdec
    have hall : (getStates tdlB).all
        (fun s => decide ((V s).1 = (optVA tdlB 1 s).1)) = true :=
      Option.some.inj hdec
    have hex : ∀ s ∈ getStates tdlB, (V s).1 = (optVA tdlB 1 s).1 := by
      intro s hs
      exact of_decide_eq_true (List.all_eq_true.1 hall s hs)
    exact ⟨V, pol, rfl, ((c1_solver_agreement tdlB 1).2 (1/100) 5 V pol hP hex).1⟩

/-! ## Analysis of the linear-system build (`policy_evaluation`) -/

theorem getD_set_self_g {α : Type} (d : α) :
    ∀ (l : List α) (i : Nat) (x : α), i < l.length → (l.set i x).getD i d = x
  | [], i, x, h => absurd h (by simp)
  | a :: l, 0, x, _ => rfl
  | a :: l, i + 1, x, h => getD_set_self_g d l i x (by simpa using h)

theorem getD_set_ne_g {α : Type} (d : α) :
    ∀ (l : List α) (i j : Nat) (x : α), i ≠ j → (l.set i x).getD j d = l.getD j d
  | [], _, _, _, _ => rfl
  | a :: l, 0, 0, x, h => absurd rfl h
  | a :: l, 0, j + 1, x, _ => rfl
  | a :: l, i + 1, 0, x, _ => rfl
  | a :: l, i + 1, j + 1, x, h =>
    getD_set_ne_g d l i j x (fun hc => h (by rw [hc]))

theorem getD_replicate_g {α : Type} (d x : α) :
    ∀ (n i : Nat), i < n → (List.replicate n x).getD i d = x
  | 0, i, h => absurd h (by simp)
  | n + 1, 0, _ => rfl
  | n + 1, i + 1, h => getD_replicate_g d x n i (by simpa using h)

theorem getD_mem_g {α : Type} (d : α) :
    ∀ (l : List α) (i : Nat), i < l.length → l.getD i d ∈ l
  | [], i, h => absurd h (by simp)
  | a :: l, 0, _ => by simp
  | a :: l, i + 1, h => by
    simp only [List.getD_cons_succ]
    exact List.mem_cons.2 (Or.inr (getD_mem_g d l i (by simpa using h)))

theorem foldl_invariant {α β : Type} (P : β → Prop) (f : β → α → β) :
    ∀ (l : List α) (init : β), P init →
      (∀ acc x, x ∈ l → P acc → P (f acc x)) → P (l.foldl f init) := by
  intro l
  induction l with
  | nil => intro init h _; exact h
  | cons a l ih =>
    intro init h hstep
    rw [List.foldl_cons]
    exact ih (f init a) (hstep init a (by simp) h)
      (fun acc x hx hacc => hstep acc x (by simp [hx]) hacc)

theorem tabulate_length {α : Type} : ∀ (n : Nat) (g : Nat → α),
    (tabulate g n).length = n
  | 0, _ => rfl
  | n + 1, g => by
    rw [tabulate, List.length_cons, tabulate_length n]

theorem tabulate_getD {α : Type} (d : α) : ∀ (n : Nat) (g : Nat → α) (i : Nat),
    i < n → (tabulate g n).getD i d = g i
  | 0, _, i, h => absurd h (by simp)
  | n + 1, g, 0, _ => rfl
  | n + 1, g, i + 1, h => by
    rw [tabulate, List.getD_cons_succ, tabulate_getD d n _ i (by omega)]

theorem map_tabulate {α β : Type} (f : α → β) : ∀ (n : Nat) (g : Nat → α),
    (tabulate g n).map f = tabulate (fun i => f (g i)) n
  | 0, _ => rfl
  | n + 1, g => by
    rw [tabulate, List.map_cons, map_tabulate f n, tabulate]

theorem zipWith_tabulate {α β γ' : Type} (f : α → β → γ') :
    ∀ (n : Nat) (g : Nat → α) (h : Nat → β),
      List.zipWith f (tabulate g n) (tabulate h n) =
        tabulate (fun i => f (g i) (h i)) n
  | 0, _, _ => rfl
  | n + 1, g, h => by
    rw [tabulate, tabulate, List.zipWith_cons_cons, zipWith_tabulate f n, tabulate]

theorem list_ext_getD {α : Type} (d : α) :
    ∀ (l₁ l₂ : List α), l₁.length = l₂.length →
      (∀ j, j < l₁.length → l₁.getD j d = l₂.getD j d) → l₁ = l₂
  | [], [], _, _ => rfl
  | [], b :: l₂, h, _ => absurd h (by simp)
  | a :: l₁, [], h, _ => absurd h (by simp)
  | a :: l₁, b :: l₂, h, hj => by
    have h0 := hj 0 (by simp)
    simp only [List.getD_cons_zero] at h0
    rw [h0, list_ext_getD d l₁ l₂ (by simpa using h)
      (fun j hjl => by simpa using hj (j + 1) (by simpa using hjl))]

theorem rowApply_snd (γ : ℚ) (states : List MState) (rew : ℚ) :
    ∀ (l : List (MState × ℚ)) (rb : List ℚ × ℚ),
      (rowApply γ states rew l rb).2 =
        rb.2 - (l.map (fun sp => sp.2 * rew)).sum
  | [], rb => by simp [rowApply]
  | sp :: l, rb => by
    rw [rowApply, rowApply_snd γ states rew l]
    simp only [List.map_cons, List.sum_cons]
    ring

theorem rowApply_fst_length (γ : ℚ) (states : List MState) (rew : ℚ) :
    ∀ (l : List (MState × ℚ)) (rb : List ℚ × ℚ),
      (rowApply γ states rew l rb).1.length = rb.1.length
  | [], rb => rfl
  | sp :: l, rb => by
    rw [rowApply, rowApply_fst_length γ states rew l]
    simp

theorem buildRowStep_lengths (tdl : MToDoList) (γ : ℚ) (states : List MState)
    (pol : MState → Option Nat) (Ab : QMat × QVec) (i : Nat) :
    (buildRowStep tdl γ states pol Ab i).1.length = Ab.1.length ∧
    (buildRowStep tdl γ states pol Ab i).2.length = Ab.2.length := by
  simp only [buildRowStep]
  refine foldl_invariant
    (fun (Ab2 : QMat × QVec) => Ab2.1.length = Ab.1.length ∧ Ab2.2.length = Ab.2.length)
    _ _ _ ⟨by simp [setMatEntry], rfl⟩ ?_
  intro acc x _ hacc
  exact ⟨by simp [setMatEntry, hacc.1], by simp [setVecEntry, hacc.2]⟩

theorem buildRowStep_frame (tdl : MToDoList) (γ : ℚ) (states : List MState)
    (pol : MState → Option Nat) (Ab : QMat × QVec) (i i' : Nat) (hii : i' ≠ i) :
    (buildRowStep tdl γ states pol Ab i).1.getD i' [] = Ab.1.getD i' [] ∧
    (buildRowStep tdl γ states pol Ab i).2.getD i' 0 = Ab.2.getD i' 0 := by
  simp only [buildRowStep]
  refine foldl_invariant
    (fun (Ab2 : QMat × QVec) =>
      Ab2.1.getD i' [] = Ab.1.getD i' [] ∧ Ab2.2.getD i' 0 = Ab.2.getD i' 0)
    _ _ _ ⟨by rw [setMatEntry]; exact getD_set_ne_g [] _ i i' _ (Ne.symm hii), rfl⟩ ?_
  intro acc x _ hacc
  constructor
  · rw [setMatEntry, getD_set_ne_g [] _ i i' _ (Ne.symm hii)]
    exact hacc.1
  · rw [setVecEntry, getD_set_ne_g 0 _ i i' _ (Ne.symm hii)]
    exact hacc.2

theorem fold_track (γ : ℚ) (states : List MState) (rew : ℚ) (i : Nat) :
    ∀ (l : List (MState × ℚ)) (M : QMat) (v : QVec), i < M.length → i < v.length →
      (((l.foldl (fun (Ab2 : QMat × QVec) sp =>
          (setMatEntry Ab2.1 i (posOf states sp.1) (γ * sp.2),
           setVecEntry Ab2.2 i ((Ab2.2.getD i 0) - sp.2 * rew))) (M, v)).1.getD i []),
       ((l.foldl (fun (Ab2 : QMat × QVec) sp =>
          (setMatEntry Ab2.1 i (posOf states sp.1) (γ * sp.2),
           setVecEntry Ab2.2 i ((Ab2.2.getD i 0) - sp.2 * rew))) (M, v)).2.getD i 0)) =
        rowApply γ states rew l (M.getD i [], v.getD i 0) := by
  intro l
  induction l with
  | nil => intro M v _ _; rfl
  | cons sp l ih =>
    intro M v hM hv
    rw [List.foldl_cons, rowApply]
    have e1 : (setMatEntry M i (posOf states sp.1) (γ * sp.2)).getD i [] =
        (M.getD i []).set (posOf states sp.1) (γ * sp.2) := by
      rw [setMatEntry]
      exact getD_set_self_g [] _ i _ hM
    have e2 : (setVecEntry v i ((v.getD i 0) - sp.2 * rew)).getD i 0 =
        v.getD i 0 - sp.2 * rew := by
      rw [setVecEntry]
      exact getD_set_self_g 0 _ i _ hv
    rw [ih (setMatEntry M i (posOf states sp.1) (γ * sp.2))
      (setVecEntry v i ((v.getD i 0) - sp.2 * rew))
      (by simp [setMatEntry, hM]) (by simp [setVecEntry, hv]), e1, e2]

theorem buildRowStep_self (tdl : MToDoList) (γ : ℚ) (states : List MState)
    (pol : MState → Option Nat) (Ab : QMat × QVec) (i : Nat)
    (hiA : i < Ab.1.length) (hib : i < Ab.2.length) :
    ((buildRowStep tdl γ states pol Ab i).1.getD i [],
     (buildRowStep tdl γ states pol Ab i).2.getD i 0) =
      rowApply γ states
        (rewardOf tdl (states.getD i ([], 0)) ((pol (states.getD i ([], 0))).getD 0))
        (transList tdl (states.getD i ([], 0)) (pol (states.getD i ([], 0))))
        ((Ab.1.getD i []).set i (-1), Ab.2.getD i 0) := by
  simp only [buildRowStep]
  rw [fold_track γ states
    (rewardOf tdl (states.getD i ([], 0)) ((pol (states.getD i ([], 0))).getD 0)) i
    (transList tdl (states.getD i ([], 0)) (pol (states.getD i ([], 0))))
    (setMatEntry Ab.1 i i (-1)) Ab.2 (by simp [setMatEntry, hiA]) hib]
  rw [setMatEntry, getD_set_self_g [] _ i _ hiA]

theorem buildFold_entries (tdl : MToDoList) (γ : ℚ) (states : List MState)
    (pol : MState → Option Nat) :
    ∀ (l : List Nat) (Ab : QMat × QVec),
      Ab.1.length = states.length → Ab.2.length = states.length → l.Nodup →
      (∀ j ∈ l, j < states.length) →
      ∀ i, i < states.length →
        ((l.foldl (buildRowStep tdl γ states pol) Ab).1.getD i [],
         (l.foldl (buildRowStep tdl γ states pol) Ab).2.getD i 0) =
          if i ∈ l then
            rowApply γ states
              (rewardOf tdl (states.getD i ([], 0)) ((pol (states.getD i ([], 0))).getD 0))
              (transList tdl (states.getD i ([], 0)) (pol (states.getD i ([], 0))))
              ((Ab.1.getD i []).set i (-1), Ab.2.getD i 0)
          else (Ab.1.getD i [], Ab.2.getD i 0) := by
  intro l
  induction l with
  | nil =>
    intro Ab _ _ _ _ i _
    simp
  | cons k l ih =>
    intro Ab h1 h2 hnd hmem i hi
    rw [List.foldl_cons]
    have hlen := buildRowStep_lengths tdl γ states pol Ab k
    have hknotl : k ∉ l := (List.nodup_cons.1 hnd).1
    have ih' := ih (buildRowStep tdl γ states pol Ab k)
      (by rw [hlen.1, h1]) (by rw [hlen.2, h2]) (List.nodup_cons.1 hnd).2
      (fun j hj => hmem j (by simp [hj])) i hi
    by_cases hil : i ∈ l
    · rw [ih', if_pos hil, if_pos (by simp [hil])]
      have hik : i ≠ k := fun hc => hknotl (hc ▸ hil)
      have hfr := buildRowStep_frame tdl γ states pol Ab k i hik
      rw [hfr.1, hfr.2]
    · by_cases hik : i = k
      · subst hik
        rw [ih', if_neg hil, if_pos (by simp)]
        exact buildRowStep_self tdl γ states pol Ab i (by omega) (by omega)
      · rw [ih', if_neg hil, if_neg (by simp [hik, hil])]
        have hfr := buildRowStep_frame tdl γ states pol Ab k i hik
        rw [hfr.1, hfr.2]

theorem buildAB_entries (tdl : MToDoList) (γ : ℚ) (states : List MState)
    (pol : MState → Option Nat) (A : QMat) (b : QVec)
    (hA : A.length = states.length) (hb : b.length = states.length)
    (i : Nat) (hi : i < states.length) :
    ((buildAB tdl γ states pol A b).1.getD i [],
     (buildAB tdl γ states pol A b).2.getD i 0) =
      rowApply γ states
        (rewardOf tdl (states.getD i ([], 0)) ((pol (states.getD i ([], 0))).getD 0))
        (transList tdl (states.getD i ([], 0)) (pol (states.getD i ([], 0))))
        ((A.getD i []).set i (-1), b.getD i 0) := by
  rw [buildAB]
  rw [buildFold_entries tdl γ states pol (List.range states.length) (A, b) hA hb
    (List.nodup_range _) (fun j hj => List.mem_range.1 hj) i hi]
  rw [if_pos (List.mem_range.2 hi)]

theorem buildAB_lengths (tdl : MToDoList) (γ : ℚ) (states : List MState)
    (pol : MState → Option Nat) (A : QMat) (b : QVec) :
    (buildAB tdl γ states pol A b).1.length = A.length ∧
    (buildAB tdl γ states pol A b).2.length = b.length := by
  rw [buildAB]
  refine foldl_invariant (fun (Ab : QMat × QVec) => Ab.1.length = A.length ∧ Ab.2.length = b.length)
    _ _ _ ⟨rfl, rfl⟩ ?_
  intro acc x _ hacc
  have := buildRowStep_lengths tdl γ states pol acc x
  exact ⟨this.1.trans hacc.1, this.2.trans hacc.2⟩

theorem target_unfold (tdl : MToDoList) (γ : ℚ) (states : List MState)
    (pol : MState → Option Nat) :
    matNeg (matSub (identMat states.length) (matSmul γ (Pmat tdl states pol))) =
      tabulate (fun i => tabulate
        (fun j => -((if i = j then (1 : ℚ) else 0) - γ * Pentry tdl states pol i j))
        states.length) states.length := by
  rw [identMat, Pmat, matSmul, map_tabulate, matSub, zipWith_tabulate, matNeg, map_tabulate]
  congr 1
  funext i
  rw [map_tabulate, zipWith_tabulate, map_tabulate]

theorem dotVec_neg : ∀ (xs v : QVec), dotVec (xs.map (fun x => -x)) v = -dotVec xs v
  | [], v => by simp [dotVec]
  | x :: xs, v => by
    match v with
    | [] => simp [dotVec]
    | y :: v =>
      have := dotVec_neg xs v
      simp only [dotVec, List.map_cons, List.zipWith_cons_cons, List.sum_cons] at this ⊢
      rw [this]
      ring

theorem matVec_neg (A : QMat) (v : QVec) :
    matVec (matNeg A) v = vecNeg (matVec A v) := by
  rw [matVec, matNeg, vecNeg, matVec, List.map_map, List.map_map]
  congr 1
  funext row
  exact dotVec_neg row v

theorem vecNeg_inj (x y : QVec) (h : vecNeg x = vecNeg y) : x = y := by
  have : ∀ z : QVec, vecNeg (vecNeg z) = z := by
    intro z
    rw [vecNeg, vecNeg, List.map_map]
    simp
  rw [← this x, h, this]

theorem mem_getStates_length (tdl : MToDoList) {s : MState}
    (hs : s ∈ getStates tdl) : s.1.length = numTasks tdl := by
  rw [getStates, List.mem_flatMap] at hs
  obtain ⟨j, _, hj⟩ := hs
  exact (level_shape tdl j s hj).1

/-- A legal action out of an enumerated state leads to a strictly later
state (positive time estimates), so its target row entry never overwrites
the diagonal. -/
theorem next_ne_self (tdl : MToDoList) (hpos : ∀ t ∈ tasksOf tdl, 0 < t.time_est)
    {s : MState} (hs : s ∈ getStates tdl) {a : Nat} (ha : a ∈ possibleActions tdl s) :
    nextState tdl s a ≠ s := by
  intro hc
  have halen : a < s.1.length := (mem_possibleActions ha).1
  have htask : (tasksOf tdl).getD a ⟨"", 0⟩ ∈ tasksOf tdl := by
    apply getD_mem_g
    rw [← numTasks, ← mem_getStates_length tdl hs]
    exact halen
  have hpos' : 0 < timeEst tdl a := hpos _ htask
  have : (nextState tdl s a).2 = s.2 := by rw [hc]
  rw [nextState] at this
  simp only at this
  omega

/-- The row the zero-initialised build writes for index `i` is exactly the
`i`-th row of `−(I − γP_π)`, and its right-hand side entry is `−R_π(i)`. -/
theorem buildAB_zero_row (tdl : MToDoList) (γ : ℚ) (pol : MState → Option Nat)
    (hpos : ∀ t ∈ tasksOf tdl, 0 < t.time_est) (i : Nat)
    (hi : i < (getStates tdl).length) :
    (buildAB tdl γ (getStates tdl) pol (zeroA (getStates tdl).length)
        (zeroB (getStates tdl).length)).1.getD i [] =
      tabulate (fun j => -((if i = j then (1 : ℚ) else 0) -
        γ * Pentry tdl (getStates tdl) pol i j)) (getStates tdl).length ∧
    (buildAB tdl γ (getStates tdl) pol (zeroA (getStates tdl).length)
        (zeroB (getStates tdl).length)).2.getD i 0 =
      -(Rentry tdl (getStates tdl) pol i) := by
  have hentries := buildAB_entries tdl γ (getStates tdl) pol
    (zeroA (getStates tdl).length) (zeroB (getStates tdl).length)
    (by simp [zeroA]) (by simp [zeroB]) i hi
  have hrow0 : (zeroA (getStates tdl).length).getD i [] =
      List.replicate (getStates tdl).length (0 : ℚ) := by
    rw [zeroA]
    exact getD_replicate_g [] _ _ i hi
  have hb0 : (zeroB (getStates tdl).length).getD i 0 = 0 := by
    rw [zeroB]
    exact getD_replicate_g 0 0 _ i hi
  rw [hrow0, hb0] at hentries
  have hs0mem : (getStates tdl).getD i ([], 0) ∈ getStates tdl :=
    getD_mem_g ([], 0) (getStates tdl) i hi
  have hb : (buildAB tdl γ (getStates tdl) pol (zeroA (getStates tdl).length)
      (zeroB (getStates tdl).length)).2.getD i 0 =
      -(Rentry tdl (getStates tdl) pol i) := by
    have hsnd := congrArg Prod.snd hentries
    simp only at hsnd
    rw [hsnd, rowApply_snd, Rentry]
    ring
  refine ⟨?_, hb⟩
  have hrow := congrArg Prod.fst hentries
  simp only at hrow
  rw [hrow]
  rcases hpa : pol ((getStates tdl).getD i ([], 0)) with _ | a
  · simp only [transList, rowApply]
    refine list_ext_getD 0 _ _ (by simp [tabulate_length]) ?_
    intro j hj
    have hjn : j < (getStates tdl).length := by simpa using hj
    rw [tabulate_getD 0 _ _ j hjn, Pentry, hpa]
    simp only [transList, List.filter_nil, List.map_nil, List.sum_nil, mul_zero, sub_zero]
    by_cases hij : i = j
    · subst hij
      rw [getD_set_self_g 0 _ i _ (by rw [List.length_replicate]; exact hi)]
      simp
    · rw [getD_set_ne_g 0 _ i j _ hij, getD_replicate_g 0 0 _ j hjn]
      simp [hij]
  · simp only [transList]
    by_cases hmem : a ∈ possibleActions tdl ((getStates tdl).getD i ([], 0))
    · rw [if_pos hmem, rowApply, rowApply]
      have hnextmem : nextState tdl ((getStates tdl).getD i ([], 0)) a ∈ getStates tdl :=
        getStates_closed tdl hs0mem hmem
      have hj0n : posOf (getStates tdl) (nextState tdl ((getStates tdl).getD i ([], 0)) a) <
          (getStates tdl).length := posOf_lt_length hnextmem
      have hj0i : posOf (getStates tdl) (nextState tdl ((getStates tdl).getD i ([], 0)) a) ≠ i := by
        intro hc
        have h1 : (getStates tdl).getD
            (posOf (getStates tdl) (nextState tdl ((getStates tdl).getD i ([], 0)) a)) ([], 0) =
            nextState tdl ((getStates tdl).getD i ([], 0)) a :=
          getD_posOf ([], 0) hnextmem
        rw [hc] at h1
        exact next_ne_self tdl hpos hs0mem hmem h1.symm
      refine list_ext_getD 0 _ _ (by simp [tabulate_length]) ?_
      intro j hj
      have hjn : j < (getStates tdl).length := by simpa using hj
      rw [tabulate_getD 0 _ _ j hjn]
      have hPe : Pentry tdl (getStates tdl) pol i j =
          (if j = posOf (getStates tdl) (nextState tdl ((getStates tdl).getD i ([], 0)) a)
            then (1 : ℚ) else 0) := by
        rw [Pentry, hpa]
        simp only [transList]
        rw [if_pos hmem]
        by_cases hjj0 : j =
            posOf (getStates tdl) (nextState tdl ((getStates tdl).getD i ([], 0)) a)
        · simp [hjj0]
        · have hfc : ¬ (decide (posOf (getStates tdl)
              (nextState tdl ((getStates tdl).getD i ([], 0)) a, 1).1 = j) = true) := by
            simp only [decide_eq_true_eq]
            exact fun hc => hjj0 hc.symm
          rw [List.filter_cons, if_neg hfc, List.filter_nil]
          rw [if_neg hjj0]
          simp
      rw [hPe]
      by_cases hjj0 : j = posOf (getStates tdl) (nextState tdl ((getStates tdl).getD i ([], 0)) a)
      · rw [hjj0]
        dsimp only
        rw [getD_set_self_g 0 _ _ _
          (by rw [List.length_set, List.length_replicate]; exact hj0n)]
        rw [if_neg (fun hc => hj0i hc.symm)]
        rw [if_pos rfl]
        ring
      · dsimp only
        rw [getD_set_ne_g 0 _ _ j _ (fun hc => hjj0 hc.symm)]
        rw [if_neg hjj0]
        by_cases hij : i = j
        · subst hij
          rw [getD_set_self_g 0 _ i _ (by rw [List.length_replicate]; exact hi)]
          rw [if_pos rfl]
          ring
        · rw [getD_set_ne_g 0 _ i j _ hij, getD_replicate_g 0 0 _ j hjn]
          rw [if_neg hij]
          ring
    · rw [if_neg hmem, rowApply]
      refine list_ext_getD 0 _ _ (by simp [tabulate_length]) ?_
      intro j hj
      have hjn : j < (getStates tdl).length := by simpa using hj
      rw [tabulate_getD 0 _ _ j hjn, Pentry, hpa]
      simp only [transList]
      rw [if_neg hmem]
      simp only [List.filter_nil, List.map_nil, List.sum_nil, mul_zero, sub_zero]
      by_cases hij : i = j
      · subst hij
        rw [getD_set_self_g 0 _ i _ (by rw [List.length_replicate]; exact hi)]
        simp
      · rw [getD_set_ne_g 0 _ i j _ hij, getD_replicate_g 0 0 _ j hjn]
        simp [hij]

/-- The zero-initialised build writes exactly the pair
`(−(I − γP_π), −R_π)` into the arrays. -/
theorem buildAB_zero_eq (tdl : MToDoList) (γ : ℚ) (pol : MState → Option Nat)
    (hpos : ∀ t ∈ tasksOf tdl, 0 < t.time_est) :
    buildAB tdl γ (getStates tdl) pol (zeroA (getStates tdl).length)
        (zeroB (getStates tdl).length) =
      (matNeg (matSub (identMat (getStates tdl).length)
          (matSmul γ (Pmat tdl (getStates tdl) pol))),
       vecNeg (Rvec tdl (getStates tdl) pol)) := by
  have hlen := buildAB_lengths tdl γ (getStates tdl) pol
    (zeroA (getStates tdl).length) (zeroB (getStates tdl).length)
  have hA : (buildAB tdl γ (getStates tdl) pol (zeroA (getStates tdl).length)
      (zeroB (getStates tdl).length)).1.length = (getStates tdl).length := by
    rw [hlen.1, zeroA, List.length_replicate]
  have hb : (buildAB tdl γ (getStates tdl) pol (zeroA (getStates tdl).length)
      (zeroB (getStates tdl).length)).2.length = (getStates tdl).length := by
    rw [hlen.2, zeroB, List.length_replicate]
  refine Prod.ext ?_ ?_
  · rw [target_unfold]
    refine list_ext_getD [] _ _ ?_ ?_
    · rw [hA, tabulate_length]
    · intro j hj
      have hjn : j < (getStates tdl).length := by rw [hA] at hj; exact hj
      rw [(buildAB_zero_row tdl γ pol hpos j hjn).1, tabulate_getD [] _ _ j hjn]
  · have hRv : vecNeg (Rvec tdl (getStates tdl) pol) =
        tabulate (fun i => -(Rentry tdl (getStates tdl) pol i)) (getStates tdl).length := by
      rw [Rvec, vecNeg, map_tabulate]
    rw [hRv]
    refine list_ext_getD 0 _ _ ?_ ?_
    · rw [hb, tabulate_length]
    · intro j hj
      have hjn : j < (getStates tdl).length := by rw [hb] at hj; exact hj
      rw [(buildAB_zero_row tdl γ pol hpos j hjn).2, tabulate_getD 0 _ _ j hjn]

/-- `C2` (amended): only on a call receiving freshly zeroed arrays does
`policy_evaluation` solve the claimed system: the arrays it returns then
hold exactly `−(I − γP_π)` and `−R_π`, so a vector solves the system it
handed to the solver iff it solves `(I − γP_π)V = R_π` for the policy of
that call.  (On the second and later calls of `policy_iteration` the reused
arrays still hold earlier entries and this fails — see the
counterexample.) -/
theorem c2_policy_evaluation_exact (tdl : MToDoList) (γ : ℚ)
    (pol : MState → Option Nat) (hpos : ∀ t ∈ tasksOf tdl, 0 < t.time_est)
    (V : MState → ℚ) (A' : QMat) (b' : QVec)
    (h : policy_evaluation tdl γ (getStates tdl) pol (zeroA (getStates tdl).length)
        (zeroB (getStates tdl).length) = some (V, A', b')) :
    A' = matNeg (matSub (identMat (getStates tdl).length)
        (matSmul γ (Pmat tdl (getStates tdl) pol))) ∧
    b' = vecNeg (Rvec tdl (getStates tdl) pol) ∧
    ∀ v : QVec, matVec A' v = b' ↔
      matVec (matSub (identMat (getStates tdl).length)
        (matSmul γ (Pmat tdl (getStates tdl) pol))) v =
      Rvec tdl (getStates tdl) pol := by
  have hz := buildAB_zero_eq tdl γ pol hpos
  simp only [policy_evaluation] at h
  rcases hsl : solveLinear (getStates tdl).length
      (buildAB tdl γ (getStates tdl) pol (zeroA (getStates tdl).length)
        (zeroB (getStates tdl).length)).1
      (buildAB tdl γ (getStates tdl) pol (zeroA (getStates tdl).length)
        (zeroB (getStates tdl).length)).2 with _ | xs
  · rw [hsl] at h
    exact absurd h (by simp)
  · rw [hsl] at h
    simp only [Option.some.injEq, Prod.mk.injEq] at h
    obtain ⟨hV, hAeq, hbeq⟩ := h
    have hA2 : A' = matNeg (matSub (identMat (getStates tdl).length)
        (matSmul γ (Pmat tdl (getStates tdl) pol))) := by
      rw [← hAeq, hz]
    have hb2 : b' = vecNeg (Rvec tdl (getStates tdl) pol) := by
      rw [← hbeq, hz]
    refine ⟨hA2, hb2, ?_⟩
    intro v
    rw [hA2, hb2, matVec_neg]
    constructor
    · intro hv
      exact vecNeg_inj _ _ hv
    · intro hv
      rw [hv]

/-- `C2` witness: the exactness theorem applied to the first evaluation
call on Scenario B's instance. -/
theorem c2_policy_evaluation_exact_witness :
    (∀ t ∈ tasksOf tdlB, 0 < t.time_est) ∧
    ∃ V A' b', policy_evaluation tdlB 1 (getStates tdlB) initialPolicy
        (zeroA (getStates tdlB).length) (zeroB (getStates tdlB).length) = some (V, A', b') ∧
      A' = matNeg (matSub (identMat (getStates tdlB).length)
        (matSmul 1 (Pmat tdlB (getStates tdlB) initialPolicy))) := by
  refine ⟨by decide, ?_⟩
  rcases hP : policy_evaluation tdlB 1 (getStates tdlB) initialPolicy
      (zeroA (getStates tdlB).length) (zeroB (getStates tdlB).length) with _ | ⟨V, A', b'⟩
  · have hsome : (policy_evaluation tdlB 1 (getStates tdlB) initialPolicy
        (zeroA (getStates tdlB).length) (zeroB (getStates tdlB).length)).isSome = true := by
      with_unfolding_all rfl
    rw [hP] at hsome
    exact absurd hsome (by simp)
  · exact ⟨V, A', b', rfl,
      (c2_policy_evaluation_exact tdlB 1 initialPolicy (by decide) V A' b' hP).1⟩

/-- `C2` counterexample: on `tdlPI` the loop's second evaluation call (the
improved policy differs from the initial one, so it really happens) builds
into the reused arrays a system that is **not** `(I − γP_π)V = R_π` for the
policy of that call, and the value dict it returns violates the Bellman
identity of that policy at the state `([false, true], 1)`: it assigns value
20 where the policy's one-step reward 10 plus the successor's value 0
requires 10. -/
theorem c2_counterexample_reused_arrays :
    piStates.all (fun s => decide (initialPolicy s = piPol2 s)) = false ∧
    piAB2 ≠ (matNeg (matSub (identMat piStates.length)
        (matSmul 1 (Pmat tdlPI piStates piPol2))),
      vecNeg (Rvec tdlPI piStates piPol2)) ∧
    piPol2 ([false, true], 1) = some 0 ∧
    piV2 ([false, true], 1) ≠
      rewardOf tdlPI ([false, true], 1) 0 + 1 * piV2 (nextState tdlPI ([false, true], 1) 0) := by
  refine ⟨by with_unfolding_all rfl, by with_unfolding_all decide,
    by with_unfolding_all rfl, by with_unfolding_all decide⟩

/-- `C9`: the build works in the caller's arrays: `policy_evaluation`
returns exactly the arrays the build produced from the ones passed in (no
fresh allocation), each `b[i]` is written by accumulation
(`b[i] = b[i] − prob·reward`) on top of whatever the array held, and
consequently on `tdlPI` the system the second call hands to the solver
differs from the one a clean (zeroed) build for the same policy would
produce. -/
theorem c9_policy_evaluation_array_reuse (tdl : MToDoList) (γ : ℚ)
    (pol : MState → Option Nat) (A : QMat) (b : QVec)
    (hA : A.length = (getStates tdl).length) (hb : b.length = (getStates tdl).length)
    (i : Nat) (hi : i < (getStates tdl).length) :
    ((buildAB tdl γ (getStates tdl) pol A b).2.getD i 0 =
      b.getD i 0 - Rentry tdl (getStates tdl) pol i) ∧
    (∀ V A' b', policy_evaluation tdl γ (getStates tdl) pol A b = some (V, A', b') →
      A' = (buildAB tdl γ (getStates tdl) pol A b).1 ∧
      b' = (buildAB tdl γ (getStates tdl) pol A b).2) ∧
    piAB2 ≠ buildAB tdlPI 1 piStates piPol2 (zeroA piStates.length) (zeroB piStates.length) := by
  refine ⟨?_, ?_, ?_⟩
  · have h := congrArg Prod.snd (buildAB_entries tdl γ (getStates tdl) pol A b hA hb i hi)
    simp only at h
    rw [h, rowApply_snd, Rentry]
  · intro V A' b' h
    simp only [policy_evaluation] at h
    rcases hsl : solveLinear (getStates tdl).length
        (buildAB tdl γ (getStates tdl) pol A b).1
        (buildAB tdl γ (getStates tdl) pol A b).2 with _ | xs
    · rw [hsl] at h
      exact absurd h (by simp)
    · rw [hsl] at h
      simp only [Option.some.injEq, Prod.mk.injEq] at h
      exact ⟨h.2.1.symm, h.2.2.symm⟩
  · with_unfolding_all decide

/-- `C9` witness: the accumulation equation at row 0 of the first build on
Scenario B's instance. -/
theorem c9_policy_evaluation_array_reuse_witness :
    ((zeroA (getStates tdlB).length).length = (getStates tdlB).length ∧
     (zeroB (getStates tdlB).length).length = (getStates tdlB).length ∧
     0 < (getStates tdlB).length) ∧
    (buildAB tdlB 1 (getStates tdlB) initialPolicy (zeroA (getStates tdlB).length)
        (zeroB (getStates tdlB).length)).2.getD 0 0 =
      (zeroB (getStates tdlB).length).getD 0 0 - Rentry tdlB (getStates tdlB) initialPolicy 0 :=
  ⟨⟨by with_unfolding_all decide, by with_unfolding_all decide, by with_unfolding_all decide⟩,
   (c9_policy_evaluation_array_reuse tdlB 1 initialPolicy _ _ (by with_unfolding_all decide)
      (by with_unfolding_all decide) 0 (by with_unfolding_all decide)).1⟩

theorem cumT_append (tdl : MToDoList) (l₁ l₂ : List (Nat × ℚ)) :
    cumT tdl (l₁ ++ l₂) = cumT tdl l₁ + cumT tdl l₂ := by
  rw [cumT, cumT, cumT, List.map_append, List.sum_append]

/-- What a successful pin phase did: it appended one entry per pinned id,
advanced the elapsed time by exactly the appended entries' estimates, and
only decreased the remaining duration. -/
theorem pinPhase_spec (tdl : MToDoList) (γ : ℚ) (V : MState → ℚ) :
    ∀ (ids : List String) (s : MState) (dur : ℤ) (acc : List (Nat × ℚ))
      (s' : MState) (dur' : ℤ) (acc' : List (Nat × ℚ)),
      pinPhase tdl γ V ids s dur acc = some (s', dur', acc') →
      ∃ l, acc' = acc ++ l ∧ l.length = ids.length ∧
        s'.2 = s.2 + cumT tdl l ∧ dur' ≤ dur
  | [], s, dur, acc, s', dur', acc', h => by
    rw [pinPhase] at h
    simp only [Option.some.injEq, Prod.mk.injEq] at h
    obtain ⟨hs, hd, ha⟩ := h
    exact ⟨[], by rw [← ha, List.append_nil], rfl,
      by rw [← hs]; simp [cumT], le_of_eq hd.symm⟩
  | id :: ids, s, dur, acc, s', dur', acc', h => by
    rw [pinPhase] at h
    rcases hf : (possibleActions tdl s).find? (fun a => id == taskDesc tdl a) with _ | a
    · rw [hf] at h
      exact absurd h (by simp)
    · rw [hf] at h
      obtain ⟨l, hl1, hl2, hl3, hl4⟩ := pinPhase_spec tdl γ V ids
        (nextState tdl s a) (dur - ((nextState tdl s a).2 : ℤ))
        (acc ++ [(a, prVal tdl γ V s a)]) s' dur' acc' h
      refine ⟨(a, prVal tdl γ V s a) :: l, ?_, by simp [hl2], ?_, ?_⟩
      · rw [hl1, List.append_assoc, List.singleton_append]
      · rw [hl3]
        have h2 : (nextState tdl s a).2 = s.2 + timeEst tdl a := rfl
        have h3 : cumT tdl ((a, prVal tdl γ V s a) :: l) = timeEst tdl a + cumT tdl l := by
          rw [cumT, List.map_cons, List.sum_cons, cumT]
        rw [h2, h3]
        omega
      · have h0 : (0 : ℤ) ≤ ((nextState tdl s a).2 : ℤ) := Int.ofNat_nonneg _
        omega

/-- A successful greedy pick really fits (by the source's absolute-elapsed
check). -/
theorem greedyPick_fits (tdl : MToDoList) (γ : ℚ) (V : MState → ℚ)
    (s : MState) (dur : ℤ) (idx : Nat)
    (h : greedyPick tdl γ V s dur = some idx) :
    0 ≤ dur - ((nextState tdl s ((possibleActions tdl s).getD idx 0)).2 : ℤ) := by
  rw [greedyPick] at h
  have h2 := List.find?_some h
  simp only [decide_eq_true_eq] at h2
  exact h2

/-- The greedy loop keeps every prefix of its output within the original
budget `D`, provided the elapsed time tracks the accumulated estimates and
the remaining duration is below `D`. -/
theorem greedyPhase_budget (tdl : MToDoList) (γ : ℚ) (V : MState → ℚ)
    (D : ℤ) (P0 : Nat) :
    ∀ (f : Nat) (s : MState) (dur : ℤ) (acc : List (Nat × ℚ)),
      s.2 = cumT tdl acc → dur ≤ D →
      (∀ k, (cumT tdl (acc.take k) : ℤ) ≤ D ∨
        D < (cumT tdl (acc.take (min k P0)) : ℤ)) →
      ∀ k, (cumT tdl (((greedyPhase tdl γ V f s dur acc).2.2).take k) : ℤ) ≤ D ∨
        D < (cumT tdl (((greedyPhase tdl γ V f s dur acc).2.2).take (min k P0)) : ℤ)
  | 0, s, dur, acc, hs, hdur, hacc => by
    rw [greedyPhase]
    exact hacc
  | f + 1, s, dur, acc, hs, hdur, hacc => by
    rw [greedyPhase]
    rcases hpk : greedyPick tdl γ V s dur with _ | idx
    · exact hacc
    · have hfit := greedyPick_fits tdl γ V s dur idx hpk
      have h2 : (nextState tdl s ((possibleActions tdl s).getD idx 0)).2 =
          s.2 + timeEst tdl ((possibleActions tdl s).getD idx 0) := rfl
      rw [h2] at hfit
      have hone : cumT tdl [((possibleActions tdl s).getD idx 0,
          prVal tdl γ V s ((possibleActions tdl s).getD idx 0))] =
          timeEst tdl ((possibleActions tdl s).getD idx 0) := by
        simp [cumT]
      refine greedyPhase_budget tdl γ V D P0 f _ _ _ ?_ ?_ ?_
      · rw [h2, cumT_append, hone, hs]
      · have h0 : (0 : ℤ) ≤
            ((nextState tdl s ((possibleActions tdl s).getD idx 0)).2 : ℤ) :=
          Int.ofNat_nonneg _
        omega
      · intro k
        rcases le_or_lt k acc.length with hk | hk
        · rw [List.take_append_of_le_length hk,
            List.take_append_of_le_length (le_trans (Nat.min_le_left k P0) hk)]
          exact hacc k
        · have hfull : (acc ++ [((possibleActions tdl s).getD idx 0,
              prVal tdl γ V s ((possibleActions tdl s).getD idx 0))]).take k =
              acc ++ [((possibleActions tdl s).getD idx 0,
                prVal tdl γ V s ((possibleActions tdl s).getD idx 0))] :=
            List.take_of_length_le
              (by simp only [List.length_append, List.length_cons, List.length_nil]; omega)
          rw [hfull]
          left
          rw [cumT_append, hone]
          omega

/-- `C6`: every prefix of the packed list keeps its cumulative time
estimate within the duration, unless already its pinned part (its first
`ids.length` entries, appended unconditionally by the pin phase)
overran. -/
theorem c6_packer_prefix_budget (tdl : MToDoList) (γ : ℚ) (V : MState → ℚ)
    (ids : List String) (D : ℤ) (out : List (Nat × ℚ))
    (h : assign_old_api_points tdl γ V ids D = some out) :
    ∀ k, (cumT tdl (out.take k) : ℤ) ≤ D ∨
      D < (cumT tdl (out.take (min k ids.length)) : ℤ) := by
  rw [assign_old_api_points] at h
  rcases hp : pinPhase tdl γ V ids (startState tdl) D [] with _ | ⟨s1, d1, acc1⟩
  · rw [hp] at h
    exact absurd h (by simp)
  · rw [hp] at h
    have hout : (greedyPhase tdl γ V (numTasks tdl + 1) s1 d1 acc1).2.2 = out :=
      Option.some.inj h
    obtain ⟨l, hl1, hl2, hl3, hl4⟩ :=
      pinPhase_spec tdl γ V ids (startState tdl) D [] s1 d1 acc1 hp
    have hacc1 : acc1 = l := by rw [hl1]; rfl
    have hs1 : s1.2 = cumT tdl acc1 := by
      rw [hl3, hacc1]
      simp [startState]
    have hlen : acc1.length = ids.length := by rw [hacc1]; exact hl2
    have hpre : ∀ k, (cumT tdl (acc1.take k) : ℤ) ≤ D ∨
        D < (cumT tdl (acc1.take (min k ids.length)) : ℤ) := by
      intro k
      have heq : acc1.take k = acc1.take (min k ids.length) := by
        rcases le_or_lt k ids.length with hk | hk
        · rw [Nat.min_eq_left hk]
        · rw [Nat.min_eq_right (le_of_lt hk),
            List.take_of_length_le (le_of_eq hlen),
            List.take_of_length_le (by omega)]
      rw [heq]
      exact le_or_lt _ D
    have hmain := greedyPhase_budget tdl γ V D ids.length
      (numTasks tdl + 1) s1 d1 acc1 hs1 hl4 hpre
    rw [hout] at hmain
    exact hmain

/-- `C6` witness: the budget theorem applied to the concrete pin-free run
on `tdlPack` with duration 12, at prefix length 1. -/
theorem c6_packer_prefix_budget_witness :
    ∃ out, assign_old_api_points tdlPack 1 packV [] 12 = some out ∧
      ((cumT tdlPack (out.take 1) : ℤ) ≤ 12 ∨
        12 < (cumT tdlPack (out.take (min 1 ([] : List String).length)) : ℤ)) := by
  rcases hP : assign_old_api_points tdlPack 1 packV [] 12 with _ | out
  · have hsome : (assign_old_api_points tdlPack 1 packV [] 12).isSome = true := by
      with_unfolding_all rfl
    rw [hP] at hsome
    exact absurd hsome (by simp)
  · exact ⟨out, rfl, c6_packer_prefix_budget tdlPack 1 packV [] 12 out hP 1⟩

/-- Splitting the pinned-id list splits the pin phase. -/
theorem pinPhase_append (tdl : MToDoList) (γ : ℚ) (V : MState → ℚ) :
    ∀ (ids₁ ids₂ : List String) (s : MState) (dur : ℤ) (acc : List (Nat × ℚ)),
      pinPhase tdl γ V (ids₁ ++ ids₂) s dur acc =
        match pinPhase tdl γ V ids₁ s dur acc with
        | none => none
        | some (s', dur', acc') => pinPhase tdl γ V ids₂ s' dur' acc'
  | [], ids₂, s, dur, acc => by
    rw [List.nil_append, pinPhase]
  | id :: ids₁, ids₂, s, dur, acc => by
    rw [List.cons_append, pinPhase, pinPhase]
    rcases hf : (possibleActions tdl s).find? (fun a => id == taskDesc tdl a) with _ | a
    · rfl
    · exact pinPhase_append tdl γ V ids₁ ids₂ _ _ _

/-- `C7`: a pinned id that matches no legal action's task description in
the state the pin phase has reached is fatal: `assign_old_api_points`
returns `none` (no partial task list), modelling the uncaught
`StopIteration` of `next`. -/
theorem c7_pinned_id_not_found_fatal (tdl : MToDoList) (γ : ℚ) (V : MState → ℚ)
    (ids₁ : List String) (id : String) (ids₂ : List String) (dur : ℤ)
    (s' : MState) (dur' : ℤ) (acc' : List (Nat × ℚ))
    (h1 : pinPhase tdl γ V ids₁ (startState tdl) dur [] = some (s', dur', acc'))
    (h2 : (possibleActions tdl s').find? (fun a => id == taskDesc tdl a) = none) :
    assign_old_api_points tdl γ V (ids₁ ++ id :: ids₂) dur = none := by
  rw [assign_old_api_points, pinPhase_append, h1]
  show (match pinPhase tdl γ V (id :: ids₂) s' dur' acc' with
    | none => none
    | some (s, dur, acc) =>
        some (greedyPhase tdl γ V (numTasks tdl + 1) s dur acc).2.2) = none
  rw [pinPhase, h2]

/-- `C7` witness: pinning `"T0"` then the unmatched id `"BOGUS"` on
`tdlPack` aborts the packer with no output. -/
theorem c7_pinned_id_not_found_fatal_witness :
    ∃ s' dur' acc',
      pinPhase tdlPack 1 packV ["T0"] (startState tdlPack) 12 [] = some (s', dur', acc') ∧
      (possibleActions tdlPack s').find? (fun a => "BOGUS" == taskDesc tdlPack a) = none ∧
      assign_old_api_points tdlPack 1 packV (["T0"] ++ "BOGUS" :: []) 12 = none := by
  rcases hP : pinPhase tdlPack 1 packV ["T0"] (startState tdlPack) 12 [] with _ | ⟨s', dur', acc'⟩
  · have hsome : (pinPhase tdlPack 1 packV ["T0"]
        (startState tdlPack) 12 []).isSome = true := by
      with_unfolding_all rfl
    rw [hP] at hsome
    exact absurd hsome (by simp)
  · have hdec : (pinPhase tdlPack 1 packV ["T0"] (startState tdlPack) 12 []).map
        (fun r => ((possibleActions tdlPack r.1).find?
          (fun a => "BOGUS" == taskDesc tdlPack a)).isNone) = some true := by
      with_unfolding_all rfl
    rw [hP] at hdec
    have hfind : ((possibleActions tdlPack s').find?
        (fun a => "BOGUS" == taskDesc tdlPack a)).isNone = true := by
      simpa using hdec
    have hfind2 := Option.isNone_iff_eq_none.1 hfind
    exact ⟨s', dur', acc', rfl, hfind2,
      c7_pinned_id_not_found_fatal tdlPack 1 packV ["T0"] "BOGUS" [] 12 s' dur' acc' hP hfind2⟩

/-- `C3`: the greedy phase checks and subtracts the successor's
**absolute** elapsed time (`next_state[1]`), not the chosen task's
time-estimate delta: on `tdlPack` with duration 12 it packs a single
5-minute task even though both tasks together take 10 ≤ 12 minutes — after
the first step the second task is legal and its 5-minute delta fits the
remaining 7 minutes, yet the pick rejects it because the successor's
absolute elapsed time is 10 > 7. -/
theorem c3_greedy_absolute_elapsed_divergence :
    (assign_old_api_points tdlPack 1 packV [] 12).map (fun l => l.map (fun p => p.1)) =
      some [0] ∧
    timeEst tdlPack 0 + timeEst tdlPack 1 ≤ 12 ∧
    nextState tdlPack (startState tdlPack) 0 = ([true, false], 5) ∧
    1 ∈ possibleActions tdlPack ([true, false], 5) ∧
    (timeEst tdlPack 1 : ℤ) ≤ 12 - ((nextState tdlPack (startState tdlPack) 0).2 : ℤ) ∧
    greedyPick tdlPack 1 packV ([true, false], 5)
      (12 - ((nextState tdlPack (startState tdlPack) 0).2 : ℤ)) = none := by
  refine ⟨by with_unfolding_all rfl, by with_unfolding_all decide,
    by with_unfolding_all decide, by with_unfolding_all decide,
    by with_unfolding_all decide, by with_unfolding_all rfl⟩

end TodoProof
